import Mathlib

/-!
Verification of the object-store core of a small git-plumbing program
(`src/main.rs`).  The program is shallowly embedded: byte strings are
`List Nat` (each element one byte), fallible operations return `Except`
or `Option`, and a Rust panic is modelled by a dedicated result
constructor.  Zlib compression is omitted throughout: it is a bijection
applied to the whole loose-object envelope, so files are modelled by
their decompressed contents.
-/

set_option maxRecDepth 8192

namespace GitCore

/-- `split_once` on a byte list: splits at the first occurrence of `sep`,
returning the parts before and after it.  Models both
`iter().position(|b| *b == 0)` + `split_at` (main.rs:215-219, 493-503)
and `str::split_once` on an ASCII separator. -/
def splitOnceNat (sep : Nat) : List Nat → Option (List Nat × List Nat)
  | [] => none
  | b :: rest =>
    if b = sep then some ([], rest)
    else
      match splitOnceNat sep rest with
      | some (l, r) => some (b :: l, r)
      | none => none

theorem splitOnceNat_eq_none {sep : Nat} {l : List Nat} (h : sep ∉ l) :
    splitOnceNat sep l = none := by
  induction l with
  | nil => rfl
  | cons b rest ih =>
    have hb : b ≠ sep := fun hb => h (hb ▸ List.mem_cons_self b rest)
    have hrest : sep ∉ rest := fun hm => h (List.mem_cons_of_mem b hm)
    simp only [splitOnceNat, if_neg hb, ih hrest]

theorem splitOnceNat_append {sep : Nat} {a : List Nat} (b : List Nat)
    (ha : sep ∉ a) : splitOnceNat sep (a ++ sep :: b) = some (a, b) := by
  induction a with
  | nil => simp [splitOnceNat]
  | cons x xs ih =>
    have hx : x ≠ sep := fun h => ha (h ▸ List.mem_cons_self x xs)
    have hxs : sep ∉ xs := fun h => ha (List.mem_cons_of_mem x h)
    simp only [List.cons_append, splitOnceNat, if_neg hx, List.append_eq, ih hxs]

theorem splitOnceNat_some {sep : Nat} {l pre post : List Nat}
    (h : splitOnceNat sep l = some (pre, post)) :
    l = pre ++ sep :: post ∧ sep ∉ pre := by
  induction l generalizing pre with
  | nil => simp [splitOnceNat] at h
  | cons b rest ih =>
    simp only [splitOnceNat] at h
    by_cases hb : b = sep
    · simp only [hb, if_true, Option.some.injEq, Prod.mk.injEq] at h
      obtain ⟨h1, h2⟩ := h
      subst h1; subst h2; subst hb
      simp
    · simp only [if_neg hb] at h
      cases hsplit : splitOnceNat sep rest with
      | none => rw [hsplit] at h; simp at h
      | some p =>
        obtain ⟨l2, r2⟩ := p
        rw [hsplit] at h
        simp only [Option.some.injEq, Prod.mk.injEq] at h
        obtain ⟨h1, h2⟩ := h
        obtain ⟨hl, hnot⟩ := ih (show splitOnceNat sep rest = some (l2, post) from h2 ▸ hsplit)
        subst h1
        constructor
        · simp [hl]
        · intro hmem
          rcases List.mem_cons.mp hmem with hcase | hcase
          · exact hb hcase.symm
          · exact hnot hcase

theorem splitOnceNat_post_length {sep : Nat} {l pre post : List Nat}
    (h : splitOnceNat sep l = some (pre, post)) :
    post.length < l.length := by
  obtain ⟨hl, _⟩ := splitOnceNat_some h
  subst hl
  simp only [List.length_append, List.length_cons]
  omega

/-! ### Decimal and octal digit rendering and parsing -/

/-- Little-endian base-10 digits, fuel-driven (the value is enough
fuel since the quotient shrinks every step). -/
def decDigitsGo : Nat → Nat → List Nat
  | _, 0 => []
  | 0, _ + 1 => []
  | fuel + 1, n + 1 => (n + 1) % 10 :: decDigitsGo fuel ((n + 1) / 10)

/-- Little-endian base-8 digits, fuel-driven. -/
def octDigitsGo : Nat → Nat → List Nat
  | _, 0 => []
  | 0, _ + 1 => []
  | fuel + 1, n + 1 => (n + 1) % 8 :: octDigitsGo fuel ((n + 1) / 8)

theorem decDigitsGo_eq_digits :
    ∀ (fuel n : Nat), n ≤ fuel → decDigitsGo fuel n = Nat.digits 10 n := by
  intro fuel
  induction fuel with
  | zero =>
    intro n h
    have hn : n = 0 := Nat.le_zero.mp h
    subst hn
    exact (Nat.digits_zero 10).symm
  | succ f ih =>
    intro n h
    cases n with
    | zero => exact (Nat.digits_zero 10).symm
    | succ m =>
      show (m + 1) % 10 :: decDigitsGo f ((m + 1) / 10) = _
      rw [Nat.digits_def' (by norm_num : 1 < 10) (Nat.succ_pos m)]
      rw [ih ((m + 1) / 10)
        (by have := Nat.div_lt_self (Nat.succ_pos m) (by norm_num : 1 < 10); omega)]

theorem octDigitsGo_eq_digits :
    ∀ (fuel n : Nat), n ≤ fuel → octDigitsGo fuel n = Nat.digits 8 n := by
  intro fuel
  induction fuel with
  | zero =>
    intro n h
    have hn : n = 0 := Nat.le_zero.mp h
    subst hn
    exact (Nat.digits_zero 8).symm
  | succ f ih =>
    intro n h
    cases n with
    | zero => exact (Nat.digits_zero 8).symm
    | succ m =>
      show (m + 1) % 8 :: octDigitsGo f ((m + 1) / 8) = _
      rw [Nat.digits_def' (by norm_num : 1 < 8) (Nat.succ_pos m)]
      rw [ih ((m + 1) / 8)
        (by have := Nat.div_lt_self (Nat.succ_pos m) (by norm_num : 1 < 8); omega)]

/-- ASCII decimal rendering of a nonnegative integer, as produced by
`usize::to_string` / `u64` display (main.rs:544, 559). -/
def decimalAscii (n : Nat) : List Nat :=
  if n = 0 then [48] else (decDigitsGo n n).reverse.map (fun d => d + 48)

/-- ASCII octal rendering, as produced by `format!("{mode:o}")`
(main.rs:279, 289): no leading zeros, `"0"` for zero. -/
def octalAscii (n : Nat) : List Nat :=
  if n = 0 then [48] else (octDigitsGo n n).reverse.map (fun d => d + 48)

theorem decimalAscii_eq (n : Nat) :
    decimalAscii n =
      if n = 0 then [48] else (Nat.digits 10 n).reverse.map (fun d => d + 48) := by
  unfold decimalAscii
  rw [decDigitsGo_eq_digits n n (Nat.le_refl n)]

theorem octalAscii_eq (n : Nat) :
    octalAscii n =
      if n = 0 then [48] else (Nat.digits 8 n).reverse.map (fun d => d + 48) := by
  unfold octalAscii
  rw [octDigitsGo_eq_digits n n (Nat.le_refl n)]

def decDigitVal (c : Nat) : Option Nat :=
  if 48 ≤ c ∧ c ≤ 57 then some (c - 48) else none

def octDigitVal (c : Nat) : Option Nat :=
  if 48 ≤ c ∧ c ≤ 55 then some (c - 48) else none

def parseDigitsLoop (dv : Nat → Option Nat) (base : Nat) :
    List Nat → Nat → Option Nat
  | [], acc => some acc
  | c :: rest, acc =>
    match dv c with
    | none => none
    | some d => parseDigitsLoop dv base rest (acc * base + d)

/-- Digit-run parser: fails on empty input or on any non-digit. -/
def parseDigits (dv : Nat → Option Nat) (base : Nat) (s : List Nat) :
    Option Nat :=
  match s with
  | [] => none
  | _ => parseDigitsLoop dv base s 0

/-- The sign-free core of Rust integer parsing: digit run plus an
overflow check against `bound` (overflow is a parse error). -/
def fromStrCore (dv : Nat → Option Nat) (base bound : Nat)
    (s : List Nat) : Option Nat :=
  match parseDigits dv base s with
  | none => none
  | some n => if n < bound then some n else none

/-- Rust's unsigned `from_str` / `from_str_radix` semantics: an optional
`+` sign is accepted, any `-` sign is rejected (the `-` arm of
`core::num::from_str_radix` is reserved for signed types, so for
unsigned types a leading `-` falls through to the digit loop and fails
as `InvalidDigit`), the digit run must be nonempty, and the result must
fit below `bound`.  `str::parse::<usize>` is this with base 10 and
bound `2^64` (main.rs:504), `u32::from_str_radix(mode, 8)` with base 8
and bound `2^32` (main.rs:231). -/
def fromStrUnsigned (dv : Nat → Option Nat) (base bound : Nat)
    (s : List Nat) : Option Nat :=
  match s with
  | 43 :: rest => fromStrCore dv base bound rest
  | _ => fromStrCore dv base bound s

def parseUsize (s : List Nat) : Option Nat :=
  fromStrUnsigned decDigitVal 10 18446744073709551616 s

def parseOctU32 (s : List Nat) : Option Nat :=
  fromStrUnsigned octDigitVal 8 4294967296 s

/-- `str::parse::<u64>` (timestamp, main.rs:339). -/
def parseTimestampU64 (s : List Nat) : Option Nat :=
  fromStrUnsigned decDigitVal 10 18446744073709551616 s

/-- `str::parse::<i32>` (timezone, main.rs:344): optional sign, decimal
digits, 32-bit signed bounds. -/
def parseI32 (s : List Nat) : Option Int :=
  match s with
  | 43 :: rest =>
    match parseDigits decDigitVal 10 rest with
    | none => none
    | some n => if n ≤ 2147483647 then some (Int.ofNat n) else none
  | 45 :: rest =>
    match parseDigits decDigitVal 10 rest with
    | none => none
    | some n => if n ≤ 2147483648 then some (-(Int.ofNat n)) else none
  | _ =>
    match parseDigits decDigitVal 10 s with
    | none => none
    | some n => if n ≤ 2147483647 then some (Int.ofNat n) else none

/-! Round-trip lemmas for digit rendering. -/

theorem parseDigitsLoop_append_some {dv : Nat → Option Nat} {base : Nat}
    {l : List Nat} {d : Nat} {acc m v : Nat}
    (hl : parseDigitsLoop dv base l acc = some m) (hd : dv d = some v) :
    parseDigitsLoop dv base (l ++ [d]) acc = some (m * base + v) := by
  induction l generalizing acc with
  | nil =>
    simp only [parseDigitsLoop, Option.some.injEq] at hl
    subst hl
    simp [parseDigitsLoop, hd]
  | cons c rest ih =>
    simp only [parseDigitsLoop] at hl ⊢
    cases hc : dv c with
    | none => rw [hc] at hl; simp at hl
    | some w =>
      rw [hc] at hl
      simp only [List.cons_append, parseDigitsLoop, hc]
      exact ih hl

theorem parseDigitsLoop_digits10 (n : Nat) :
    parseDigitsLoop decDigitVal 10
      ((Nat.digits 10 n).reverse.map (fun d => d + 48)) 0 = some n := by
  induction n using Nat.strong_induction_on with
  | _ n ih =>
    rcases Nat.eq_zero_or_pos n with h0 | hpos
    · subst h0; simp [parseDigitsLoop]
    · rw [Nat.digits_def' (by norm_num : 1 < 10) hpos]
      simp only [List.reverse_cons, List.map_append, List.map_cons, List.map_nil]
      have hdiv : n / 10 < n := Nat.div_lt_self hpos (by norm_num)
      have hmod : n % 10 < 10 := Nat.mod_lt n (by norm_num)
      have hdv : decDigitVal (n % 10 + 48) = some (n % 10) := by
        simp only [decDigitVal]
        rw [if_pos (by omega)]
        have harith : n % 10 + 48 - 48 = n % 10 := by omega
        rw [harith]
      rw [parseDigitsLoop_append_some (ih (n / 10) hdiv) hdv]
      have hback : n / 10 * 10 + n % 10 = n := by omega
      rw [hback]

theorem parseDigitsLoop_digits8 (n : Nat) :
    parseDigitsLoop octDigitVal 8
      ((Nat.digits 8 n).reverse.map (fun d => d + 48)) 0 = some n := by
  induction n using Nat.strong_induction_on with
  | _ n ih =>
    rcases Nat.eq_zero_or_pos n with h0 | hpos
    · subst h0; simp [parseDigitsLoop]
    · rw [Nat.digits_def' (by norm_num : 1 < 8) hpos]
      simp only [List.reverse_cons, List.map_append, List.map_cons, List.map_nil]
      have hdiv : n / 8 < n := Nat.div_lt_self hpos (by norm_num)
      have hmod : n % 8 < 8 := Nat.mod_lt n (by norm_num)
      have hdv : octDigitVal (n % 8 + 48) = some (n % 8) := by
        simp only [octDigitVal]
        rw [if_pos (by omega)]
        have harith : n % 8 + 48 - 48 = n % 8 := by omega
        rw [harith]
      rw [parseDigitsLoop_append_some (ih (n / 8) hdiv) hdv]
      have hback : n / 8 * 8 + n % 8 = n := by omega
      rw [hback]

theorem decimalAscii_ne_nil (n : Nat) : decimalAscii n ≠ [] := by
  rw [decimalAscii_eq]
  split
  · simp
  · next h =>
    simp only [ne_eq, List.map_eq_nil_iff, List.reverse_eq_nil_iff]
    exact Nat.digits_ne_nil_iff_ne_zero.mpr h

theorem octalAscii_ne_nil (n : Nat) : octalAscii n ≠ [] := by
  rw [octalAscii_eq]
  split
  · simp
  · next h =>
    simp only [ne_eq, List.map_eq_nil_iff, List.reverse_eq_nil_iff]
    exact Nat.digits_ne_nil_iff_ne_zero.mpr h

theorem decimalAscii_mem_range {n : Nat} {b : Nat} (h : b ∈ decimalAscii n) :
    48 ≤ b ∧ b ≤ 57 := by
  rw [decimalAscii_eq] at h
  split at h
  · simp at h; refine ⟨?_, ?_⟩ <;> omega
  · simp only [List.mem_map, List.mem_reverse] at h
    obtain ⟨d, hd, rfl⟩ := h
    have := Nat.digits_lt_base (by norm_num : 1 < 10) hd
    refine ⟨?_, ?_⟩ <;> omega

theorem octalAscii_mem_range {n : Nat} {b : Nat} (h : b ∈ octalAscii n) :
    48 ≤ b ∧ b ≤ 55 := by
  rw [octalAscii_eq] at h
  split at h
  · simp at h; refine ⟨?_, ?_⟩ <;> omega
  · simp only [List.mem_map, List.mem_reverse] at h
    obtain ⟨d, hd, rfl⟩ := h
    have := Nat.digits_lt_base (by norm_num : 1 < 8) hd
    refine ⟨?_, ?_⟩ <;> omega

theorem parseDigits_cons {dv : Nat → Option Nat} {base : Nat}
    (c : Nat) (rest : List Nat) :
    parseDigits dv base (c :: rest) = parseDigitsLoop dv base (c :: rest) 0 :=
  rfl

theorem parseDigits_decimalAscii (n : Nat) :
    parseDigits decDigitVal 10 (decimalAscii n) = some n := by
  have hloop : parseDigitsLoop decDigitVal 10 (decimalAscii n) 0 = some n := by
    rw [decimalAscii_eq]
    split
    · next h0 => subst h0; simp [parseDigitsLoop, decDigitVal]
    · exact parseDigitsLoop_digits10 n
  rcases hne : decimalAscii n with _ | ⟨c, rest⟩
  · exact absurd hne (decimalAscii_ne_nil n)
  · rw [parseDigits_cons, ← hne, hloop]

theorem parseDigits_octalAscii (n : Nat) :
    parseDigits octDigitVal 8 (octalAscii n) = some n := by
  have hloop : parseDigitsLoop octDigitVal 8 (octalAscii n) 0 = some n := by
    rw [octalAscii_eq]
    split
    · next h0 => subst h0; simp [parseDigitsLoop, octDigitVal]
    · exact parseDigitsLoop_digits8 n
  rcases hne : octalAscii n with _ | ⟨c, rest⟩
  · exact absurd hne (octalAscii_ne_nil n)
  · rw [parseDigits_cons, ← hne, hloop]

theorem fromStrCore_of_parse {dv : Nat → Option Nat} {base bound : Nat}
    {s : List Nat} {n : Nat} (hp : parseDigits dv base s = some n)
    (hb : n < bound) : fromStrCore dv base bound s = some n := by
  unfold fromStrCore
  rw [hp]
  exact if_pos hb

theorem fromStrUnsigned_no_sign {dv : Nat → Option Nat} {base bound : Nat}
    {s : List Nat} (h43 : ∀ r, s ≠ 43 :: r) :
    fromStrUnsigned dv base bound s = fromStrCore dv base bound s := by
  unfold fromStrUnsigned
  split
  · rename_i x y
    exact absurd rfl (h43 y)
  · rfl

theorem parseUsize_decimalAscii (n : Nat) (h : n < 18446744073709551616) :
    parseUsize (decimalAscii n) = some n := by
  have hcore : fromStrCore decDigitVal 10 18446744073709551616 (decimalAscii n)
      = some n := fromStrCore_of_parse (parseDigits_decimalAscii n) h
  have h43 : ∀ r, decimalAscii n ≠ 43 :: r := by
    intro r heq
    have hmem : (43 : Nat) ∈ decimalAscii n := by
      rw [heq]; exact List.mem_cons_self 43 r
    have := (decimalAscii_mem_range hmem).1
    omega
  rw [parseUsize, fromStrUnsigned_no_sign h43, hcore]

theorem parseOctU32_octalAscii (n : Nat) (h : n < 4294967296) :
    parseOctU32 (octalAscii n) = some n := by
  have hcore : fromStrCore octDigitVal 8 4294967296 (octalAscii n)
      = some n := fromStrCore_of_parse (parseDigits_octalAscii n) h
  have h43 : ∀ r, octalAscii n ≠ 43 :: r := by
    intro r heq
    have hmem : (43 : Nat) ∈ octalAscii n := by
      rw [heq]; exact List.mem_cons_self 43 r
    have := (octalAscii_mem_range hmem).1
    omega
  rw [parseOctU32, fromStrUnsigned_no_sign h43, hcore]


/-! ### UTF-8 validation

`std::str::from_utf8` (main.rs:220, 457, 496) accepts exactly the
well-formed UTF-8 byte strings; this is the standard table-driven
validator (rejecting overlong forms, surrogates and values above
U+10FFFF). -/

def isUtf8Cont (b : Nat) : Bool := 128 ≤ b && b ≤ 191

/-- Classifies a head byte: `none` for an ill-formed head, otherwise
the number of continuation bytes and the admissible range of the first
continuation byte (subsequent continuation bytes always use 128-191). -/
def utf8HeadClass (b : Nat) : Option (Nat × Nat × Nat) :=
  if b ≤ 127 then some (0, 0, 0)
  else if 194 ≤ b && b ≤ 223 then some (1, 128, 191)
  else if b = 224 then some (2, 160, 191)
  else if (225 ≤ b && b ≤ 236) || b = 238 || b = 239 then some (2, 128, 191)
  else if b = 237 then some (2, 128, 159)
  else if b = 240 then some (3, 144, 191)
  else if 241 ≤ b && b ≤ 243 then some (3, 128, 191)
  else if b = 244 then some (3, 128, 143)
  else none

/-- One decoding step: given the first byte and the remaining bytes,
returns the bytes after one well-formed encoded scalar value, or `none`
if the head is ill-formed. -/
def utf8Step (b : Nat) (rest : List Nat) : Option (List Nat) :=
  match utf8HeadClass b with
  | none => none
  | some (k, lo, hi) =>
    match k, rest with
    | 0, r => some r
    | 1, c1 :: r => if lo ≤ c1 && c1 ≤ hi then some r else none
    | 2, c1 :: c2 :: r =>
      if (lo ≤ c1 && c1 ≤ hi) && isUtf8Cont c2 then some r else none
    | 3, c1 :: c2 :: c3 :: r =>
      if (lo ≤ c1 && c1 ≤ hi) && isUtf8Cont c2 && isUtf8Cont c3 then some r
      else none
    | _, _ => none

theorem utf8Step_length {b : Nat} {rest r : List Nat}
    (h : utf8Step b rest = some r) : r.length ≤ rest.length := by
  unfold utf8Step at h
  repeat' split at h
  all_goals first
    | (solve | simp at h)
    | (simp only [Option.some.injEq] at h; subst h;
       (try simp only [List.length_cons]); omega)

theorem utf8Step_append {b : Nat} {rest r : List Nat} (s : List Nat)
    (h : utf8Step b rest = some r) :
    utf8Step b (rest ++ s) = some (r ++ s) := by
  unfold utf8Step at h ⊢
  cases hclass : utf8HeadClass b with
  | none => rw [hclass] at h; simp at h
  | some t =>
    obtain ⟨k, lo, hi⟩ := t
    rw [hclass] at h
    match k with
    | 0 =>
      simp at h
      subst h
      simp
    | 1 =>
      cases rest with
      | nil => simp at h
      | cons c1 r2 =>
        simp only [List.cons_append]
        simp at h
        obtain ⟨hcond, hr⟩ := h
        subst hr
        simp [hcond]
    | 2 =>
      cases rest with
      | nil => simp at h
      | cons c1 r2 =>
        cases r2 with
        | nil => simp at h
        | cons c2 r3 =>
          simp only [List.cons_append]
          simp at h
          obtain ⟨hcond, hr⟩ := h
          subst hr
          simp [hcond]
    | 3 =>
      cases rest with
      | nil => simp at h
      | cons c1 r2 =>
        cases r2 with
        | nil => simp at h
        | cons c2 r3 =>
          cases r3 with
          | nil => simp at h
          | cons c3 r4 =>
            simp only [List.cons_append]
            simp at h
            obtain ⟨hcond, hr⟩ := h
            subst hr
            simp [hcond]
    | k + 4 =>
      simp at h

/-- Fuel-driven validator loop; each step consumes at least one byte, so
the byte count is always enough fuel. -/
def validUtf8Go : Nat → List Nat → Bool
  | _, [] => true
  | 0, _ :: _ => false
  | fuel + 1, b :: rest =>
    match utf8Step b rest with
    | some r => validUtf8Go fuel r
    | none => false

def validUtf8 (l : List Nat) : Bool := validUtf8Go l.length l

theorem validUtf8Go_fuel :
    ∀ (f1 f2 : Nat) (l : List Nat), l.length ≤ f1 → l.length ≤ f2 →
      validUtf8Go f1 l = validUtf8Go f2 l := by
  intro f1
  induction f1 with
  | zero =>
    intro f2 l h1 _
    have hl : l = [] := List.length_eq_zero.mp (Nat.le_zero.mp h1)
    subst hl
    cases f2 <;> rfl
  | succ f ih =>
    intro f2 l h1 h2
    cases l with
    | nil => cases f2 <;> rfl
    | cons b rest =>
      cases f2 with
      | zero => simp at h2
      | succ f2p =>
        simp only [validUtf8Go]
        cases hstep : utf8Step b rest with
        | none => rfl
        | some r =>
          have hr := utf8Step_length hstep
          simp only [List.length_cons] at h1 h2
          exact ih f2p r (by omega) (by omega)

theorem validUtf8_cons (b : Nat) (rest : List Nat) :
    validUtf8 (b :: rest) =
      match utf8Step b rest with
      | some r => validUtf8 r
      | none => false := by
  show validUtf8Go (rest.length + 1) (b :: rest) = _
  simp only [validUtf8Go]
  cases hstep : utf8Step b rest with
  | none => rfl
  | some r =>
    have hr := utf8Step_length hstep
    exact validUtf8Go_fuel rest.length r.length r (by omega) (by omega)

theorem validUtf8_cons_ascii {x : Nat} (rest : List Nat) (hx : x ≤ 127) :
    validUtf8 (x :: rest) = validUtf8 rest := by
  have hstep : utf8Step x rest = some rest := by
    unfold utf8Step utf8HeadClass
    rw [if_pos hx]
  rw [validUtf8_cons, hstep]

theorem validUtf8_ascii_append {a : List Nat} (s : List Nat)
    (ha : ∀ b ∈ a, b ≤ 127) : validUtf8 (a ++ s) = validUtf8 s := by
  induction a with
  | nil => rfl
  | cons x xs ih =>
    have hx : x ≤ 127 := ha x (List.mem_cons_self x xs)
    have hxs : ∀ b ∈ xs, b ≤ 127 := fun b hb => ha b (List.mem_cons_of_mem x hb)
    rw [List.cons_append, validUtf8_cons_ascii _ hx]
    exact ih hxs

theorem validUtf8_ascii {a : List Nat} (ha : ∀ b ∈ a, b ≤ 127) :
    validUtf8 a = true := by
  have h := validUtf8_ascii_append (a := a) [] ha
  simp only [List.append_nil] at h
  rw [h]
  rfl

theorem validUtf8_append_aux (s : List Nat) (hs : validUtf8 s = true) :
    ∀ (n : Nat) (a : List Nat), a.length ≤ n → validUtf8 a = true →
      validUtf8 (a ++ s) = true := by
  intro n
  induction n with
  | zero =>
    intro a ha0 _
    have hl : a = [] := List.length_eq_zero.mp (Nat.le_zero.mp ha0)
    subst hl
    simpa using hs
  | succ m ih =>
    intro a halen ha
    cases a with
    | nil => simpa using hs
    | cons b rest =>
      rw [validUtf8_cons] at ha
      cases hstep : utf8Step b rest with
      | none => rw [hstep] at ha; simp at ha
      | some r =>
        rw [hstep] at ha
        have hr := utf8Step_length hstep
        rw [List.cons_append, validUtf8_cons, utf8Step_append s hstep]
        refine ih r ?_ ha
        simp only [List.length_cons] at halen
        omega

theorem validUtf8_append {a : List Nat} (s : List Nat)
    (ha : validUtf8 a = true) (hs : validUtf8 s = true) :
    validUtf8 (a ++ s) = true :=
  validUtf8_append_aux s hs a.length a (Nat.le_refl _) ha

/-! ### SHA-1 (the `sha1` crate, main.rs:540-548)

Machine words are `Nat` kept below `2^32` by explicit `% 4294967296`
masking; bitwise complement of a word `b < 2^32` is `4294967295 - b`. -/

def rotl32 (x s : Nat) : Nat :=
  ((x <<< s) % 4294967296) + (x >>> (32 - s))

def sha1F (t b c d : Nat) : Nat :=
  if t < 20 then (b &&& c) ||| ((4294967295 - b) &&& d)
  else if t < 40 then b ^^^ c ^^^ d
  else if t < 60 then (b &&& c) ||| (b &&& d) ||| (c &&& d)
  else b ^^^ c ^^^ d

def sha1K (t : Nat) : Nat :=
  if t < 20 then 1518500249
  else if t < 40 then 1859775393
  else if t < 60 then 2400959708
  else 3395469782

def bytesToWords : List Nat → List Nat
  | b0 :: b1 :: b2 :: b3 :: rest =>
    (((b0 * 256 + b1) * 256 + b2) * 256 + b3) :: bytesToWords rest
  | _ => []

def sha1ExtendLoop : Nat → List Nat → List Nat
  | 0, w => w
  | fuel + 1, w =>
    let i := w.length
    sha1ExtendLoop fuel
      (w ++ [rotl32 ((w.getD (i - 3) 0) ^^^ (w.getD (i - 8) 0) ^^^
                     (w.getD (i - 14) 0) ^^^ (w.getD (i - 16) 0)) 1])

def sha1Rounds (w : List Nat) : Nat → Nat →
    Nat × Nat × Nat × Nat × Nat → Nat × Nat × Nat × Nat × Nat
  | 0, _, st => st
  | fuel + 1, t, (a, b, c, d, e) =>
    let temp := (rotl32 a 5 + sha1F t b c d + e + sha1K t + w.getD t 0)
                  % 4294967296
    sha1Rounds w fuel (t + 1) (temp, a, rotl32 b 30, c, d)

def sha1Compress (st : Nat × Nat × Nat × Nat × Nat) (chunk : List Nat) :
    Nat × Nat × Nat × Nat × Nat :=
  let w := sha1ExtendLoop 64 (bytesToWords chunk)
  match st, sha1Rounds w 80 0 st with
  | (h0, h1, h2, h3, h4), (a, b, c, d, e) =>
    ((h0 + a) % 4294967296, (h1 + b) % 4294967296, (h2 + c) % 4294967296,
     (h3 + d) % 4294967296, (h4 + e) % 4294967296)

def sha1ChunksLoop : Nat → (Nat × Nat × Nat × Nat × Nat) → List Nat →
    Nat × Nat × Nat × Nat × Nat
  | 0, st, _ => st
  | fuel + 1, st, data =>
    sha1ChunksLoop fuel (sha1Compress st (data.take 64)) (data.drop 64)

def be64Bytes (n : Nat) : List Nat :=
  [(n >>> 56) % 256, (n >>> 48) % 256, (n >>> 40) % 256, (n >>> 32) % 256,
   (n >>> 24) % 256, (n >>> 16) % 256, (n >>> 8) % 256, n % 256]

def be32Bytes (n : Nat) : List Nat :=
  [(n >>> 24) % 256, (n >>> 16) % 256, (n >>> 8) % 256, n % 256]

def sha1Pad (msg : List Nat) : List Nat :=
  msg ++ [128] ++ List.replicate ((119 - msg.length % 64) % 64) 0
      ++ be64Bytes (msg.length * 8)

def sha1Digest (msg : List Nat) : Nat × Nat × Nat × Nat × Nat :=
  sha1ChunksLoop ((sha1Pad msg).length / 64)
    (1732584193, 4023233417, 2562383102, 271733878, 3285377520) (sha1Pad msg)

def sha1 (msg : List Nat) : List Nat :=
  be32Bytes (sha1Digest msg).1 ++ be32Bytes (sha1Digest msg).2.1 ++
  be32Bytes (sha1Digest msg).2.2.1 ++ be32Bytes (sha1Digest msg).2.2.2.1 ++
  be32Bytes (sha1Digest msg).2.2.2.2

theorem sha1_length (msg : List Nat) : (sha1 msg).length = 20 := by
  simp [sha1, be32Bytes]

theorem sha1_mem_lt {msg : List Nat} {b : Nat} (h : b ∈ sha1 msg) : b < 256 := by
  simp only [sha1, be32Bytes, List.append_assoc, List.mem_append, List.mem_cons,
    List.not_mem_nil, or_false] at h
  rcases h with h | h | h | h | h <;> rcases h with h | h | h | h <;>
    (subst h; exact Nat.mod_lt _ (by norm_num))

/-- Lowercase hex digit, as produced by `format!("{b:02x}")`. -/
def hexDigitChar (n : Nat) : Char :=
  if n < 10 then Char.ofNat (n + 48) else Char.ofNat (n + 87)

/-- Two lowercase hex characters for a byte (`format!("{b:02x}")`,
main.rs:551). -/
def byteHexChars (b : Nat) : List Char :=
  [hexDigitChar (b / 16 % 16), hexDigitChar (b % 16)]

/-- `hash_string` rendering of a byte list (main.rs:550-552). -/
def bytesToHexString (bs : List Nat) : String :=
  String.mk (bs.map byteHexChars).flatten

/-! ### Error taxonomy (section 7 of the design; `anyhow` errors in the
source, distinguished here by constructor) -/

inductive GitError where
  | notFound
  | malformed (msg : String)
  | hashMismatch
  | invalidArgument
deriving DecidableEq

def msgNoHeaderTerm : String := "Invalid object file data, could not find header terminator."
def msgHeaderFormat : String := "Invalid object file header format"
def msgUtf8 : String := "invalid utf-8 sequence"
def msgParseInt : String := "invalid digit found in string"
def msgLenMismatch : String := "object_size == object_data.len()"
def msgTreeNoNul : String := "Invalid tree item data, could not find filename terminator"
def msgTreeNoSpace : String := "Invalid tree item data, could not find split between mode and filename."
def msgCommitParse : String := "Trying to parse commit"

/-! ### Commit grammar (PersonLine, CommitData; main.rs:315-421)

The Rust code parses `&str` values; on valid UTF-8 input every splitting
operation used (`split_once` on an ASCII character, byte length, ASCII
hex-digit tests) acts byte-for-byte as modelled here, because ASCII bytes
never occur inside a multi-byte UTF-8 sequence.  `str::trim` strips
leading and trailing `char::is_whitespace` characters, i.e. the Unicode
`White_Space` code points U+0009-U+000D, U+0020, U+0085, U+00A0, U+1680,
U+2000-U+200A, U+2028, U+2029, U+202F, U+205F and U+3000; `trimUnicodeWs`
below strips exactly the UTF-8 encodings of these from both ends. -/

structure PersonRec where
  name : List Nat
  email : List Nat
  timestamp : Nat
  timezone : Int
deriving DecidableEq

def isAsciiWs (b : Nat) : Bool :=
  b = 9 || b = 10 || b = 11 || b = 12 || b = 13 || b = 32

/-- If the byte string starts with the UTF-8 encoding of a `White_Space`
code point, strip that encoding.  The multi-byte encodings are
`[194,133]` (U+0085), `[194,160]` (U+00A0), `[225,154,128]` (U+1680),
`[226,128,c]` with `c` in 128-138 (U+2000-U+200A) or 168/169/175
(U+2028/U+2029/U+202F), `[226,129,159]` (U+205F) and `[227,128,128]`
(U+3000). -/
def wsCharHead : List Nat → Option (List Nat)
  | [] => none
  | b :: rest =>
    if isAsciiWs b then some rest
    else if b = 194 then
      match rest with
      | c :: rest2 => if c = 133 ∨ c = 160 then some rest2 else none
      | [] => none
    else if b = 225 then
      match rest with
      | 154 :: 128 :: rest2 => some rest2
      | _ => none
    else if b = 226 then
      match rest with
      | 128 :: c :: rest2 =>
        if (128 ≤ c ∧ c ≤ 138) ∨ c = 168 ∨ c = 169 ∨ c = 175 then some rest2
        else none
      | 129 :: 159 :: rest2 => some rest2
      | _ => none
    else if b = 227 then
      match rest with
      | 128 :: 128 :: rest2 => some rest2
      | _ => none
    else none

/-- `wsCharHead` for the REVERSED byte string: strips the reversed UTF-8
encoding of one trailing `White_Space` code point.  On valid UTF-8 this
is exact: a continuation byte can only close the multi-byte sequence
whose lead byte precedes it. -/
def wsCharTailRev : List Nat → Option (List Nat)
  | [] => none
  | b :: rest =>
    if isAsciiWs b then some rest
    else if b = 133 ∨ b = 160 then
      match rest with
      | 194 :: rest2 => some rest2
      | _ => none
    else if b = 128 then
      match rest with
      | 154 :: 225 :: rest2 => some rest2
      | 128 :: 226 :: rest2 => some rest2
      | 128 :: 227 :: rest2 => some rest2
      | _ => none
    else if (129 ≤ b ∧ b ≤ 138) ∨ b = 168 ∨ b = 169 ∨ b = 175 then
      match rest with
      | 128 :: 226 :: rest2 => some rest2
      | _ => none
    else if b = 159 then
      match rest with
      | 129 :: 226 :: rest2 => some rest2
      | _ => none
    else none

/-- Strip whitespace encodings as long as the matcher fires; each hit
consumes at least one byte, so the byte count is enough fuel. -/
def dropWsGo (f : List Nat → Option (List Nat)) : Nat → List Nat → List Nat
  | 0, l => l
  | fuel + 1, l =>
    match f l with
    | some rest => dropWsGo f fuel rest
    | none => l

/-- `str::trim` (main.rs:334, 338): strip leading and trailing Unicode
`White_Space` characters. -/
def trimUnicodeWs (l : List Nat) : List Nat :=
  let front := dropWsGo wsCharHead l.length l
  (dropWsGo wsCharTailRev front.length front.reverse).reverse

def isHexDigitByte (b : Nat) : Bool :=
  (48 ≤ b && b ≤ 57) || (97 ≤ b && b ≤ 102) || (65 ≤ b && b ≤ 70)

/-- `PersonLine::try_from` (main.rs:323-353): split on the first `<`,
then the first `>`, trim, split the remainder on the first space into
timestamp and timezone. -/
def personLineParse (value : List Nat) : Option PersonRec :=
  match splitOnceNat 60 value with
  | none => none
  | some (name, rest) =>
    match splitOnceNat 62 rest with
    | none => none
    | some (email, rest2) =>
      match splitOnceNat 32 (trimUnicodeWs rest2) with
      | none => none
      | some (tsBytes, tzBytes) =>
        match parseTimestampU64 tsBytes with
        | none => none
        | some ts =>
          match parseI32 tzBytes with
          | none => none
          | some tz => some ⟨trimUnicodeWs name, email, ts, tz⟩

structure CommitRec where
  treeHash : List Nat
  parents : List (List Nat)
  author : PersonRec
  committer : PersonRec
  message : List Nat
deriving DecidableEq

def treeTagBytes : List Nat := [116, 114, 101, 101]
def authorTagBytes : List Nat := [97, 117, 116, 104, 111, 114]
def committerTagBytes : List Nat := [99, 111, 109, 109, 105, 116, 116, 101, 114]
def parentTagBytes : List Nat := [112, 97, 114, 101, 110, 116]

/-- One pass of the header-line loop of `CommitData::try_from`
(main.rs:367-411), fuel-driven; each iteration consumes at least the
newline, so the byte count is enough fuel. -/
def commitLoopGo : Nat → List Nat → Option (List Nat) → List (List Nat) →
    Option PersonRec → Option PersonRec → Option CommitRec
  | 0, _, _, _, _, _ => none
  | fuel + 1, v, treeHash, parents, author, committer =>
    match splitOnceNat 10 v with
    | none => none
    | some (line, rest) =>
      if line = [] then
        match treeHash, author, committer with
        | some th, some au, some co => some ⟨th, parents, au, co, rest⟩
        | _, _, _ => none
      else
        match splitOnceNat 32 line with
        | none => none
        | some (tag, value) =>
          if tag = treeTagBytes then
            if treeHash = none ∧ value.all isHexDigitByte ∧ value.length = 40
            then commitLoopGo fuel rest (some value) parents author committer
            else none
          else if tag = authorTagBytes then
            if author = none then
              match personLineParse value with
              | some p => commitLoopGo fuel rest treeHash parents (some p) committer
              | none => none
            else none
          else if tag = committerTagBytes then
            if committer = none then
              match personLineParse value with
              | some p => commitLoopGo fuel rest treeHash parents author (some p)
              | none => none
            else none
          else if tag = parentTagBytes then
            if value.all isHexDigitByte ∧ value.length = 40
            then commitLoopGo fuel rest treeHash (parents ++ [value]) author committer
            else none
          else none

def commitDataParse (v : List Nat) : Option CommitRec :=
  commitLoopGo (v.length + 1) v none [] none none

/-- `Commit::try_from(&[u8])` (main.rs:453-461): UTF-8 check, grammar
check, and the stored value is the unchanged byte string. -/
def commitTryFrom (bytes : List Nat) : Option (List Nat) :=
  if validUtf8 bytes then
    match commitDataParse bytes with
    | some _ => some bytes
    | none => none
  else none

/-! ### The Object union (main.rs:474-565) -/

inductive Object where
  | unknown (kind : List Nat) (data : List Nat)
  | blob (data : List Nat)
  | commit (text : List Nat)
  | tree (data : List Nat)
deriving DecidableEq

def blobKindBytes : List Nat := [98, 108, 111, 98]
def commitKindBytes : List Nat := [99, 111, 109, 109, 105, 116]
def treeKindBytes : List Nat := [116, 114, 101, 101]

/-- `Object::kind` (main.rs:522-529), as UTF-8 bytes. -/
def Object.kindBytes : Object → List Nat
  | .blob _ => blobKindBytes
  | .commit _ => commitKindBytes
  | .tree _ => treeKindBytes
  | .unknown k _ => k

/-- `Object::contents_bytes` (main.rs:531-538). -/
def Object.contentsBytes : Object → List Nat
  | .blob d => d
  | .commit t => t
  | .tree d => d
  | .unknown _ d => d

/-- `Object::hash` (main.rs:540-548): SHA-1 over
`kind ++ " " ++ decimal(len) ++ "\0" ++ payload`. -/
def Object.hash (o : Object) : List Nat :=
  sha1 (o.kindBytes ++ 32 :: decimalAscii o.contentsBytes.length
        ++ 0 :: o.contentsBytes)

/-- `Object::hash_string` (main.rs:550-552). -/
def Object.hashString (o : Object) : String := bytesToHexString o.hash

/-- `Object::write_to` (main.rs:554-564) before compression: the loose
object envelope `kind ++ " " ++ decimal(len) ++ "\0" ++ payload`. -/
def Object.encodeBytes (o : Object) : List Nat :=
  o.kindBytes ++ 32 :: decimalAscii o.contentsBytes.length
    ++ 0 :: o.contentsBytes

/-- The kind dispatch of `Object::from_path` (main.rs:507-519). -/
def dispatchObject (objectType objectData : List Nat) : Except GitError Object :=
  if objectType = blobKindBytes then .ok (.blob objectData)
  else if objectType = commitKindBytes then
    match commitTryFrom objectData with
    | some t => .ok (.commit t)
    | none => .error (.malformed msgCommitParse)
  else if objectType = treeKindBytes then .ok (.tree objectData)
  else .ok (.unknown objectType objectData)

/-- `Object::from_path` (main.rs:483-520) after zlib decompression:
split at the first NUL, check the header is UTF-8, split it at the first
space into kind and declared size, parse the size, and require it to
equal the payload length. -/
def objectFromBytes (contents : List Nat) : Except GitError Object :=
  match splitOnceNat 0 contents with
  | none => .error (.malformed msgNoHeaderTerm)
  | some (header, objectData) =>
    if validUtf8 header then
      match splitOnceNat 32 header with
      | none => .error (.malformed msgHeaderFormat)
      | some (objectType, sizeBytes) =>
        match parseUsize sizeBytes with
        | none => .error (.malformed msgParseInt)
        | some objectSize =>
          if objectSize = objectData.length then
            dispatchObject objectType objectData
          else .error (.malformed msgLenMismatch)
    else .error (.malformed msgUtf8)

/-! ### Tree items (main.rs:206-313) -/

structure TreeItem where
  mode : Nat
  name : List Nat
  hash : List Nat
deriving DecidableEq

/-- Result of `TreeItem::parse`: `Ok`, an `anyhow` error, or a Rust
panic (`slice::split_at` with fewer than 20 bytes available panics,
main.rs:219). -/
inductive PResult (α : Type) where
  | ok (val : α)
  | malformed (msg : String)
  | panicked
deriving DecidableEq

/-- `TreeItem::parse` (main.rs:214-236).  Order of operations follows
the source: NUL scan (error), 20-byte split of the bytes after the NUL
(panic when short), UTF-8 check of the header (error), space split
(error), octal mode parse (error). -/
def parseTreeItem (data : List Nat) : PResult (List Nat × TreeItem) :=
  match splitOnceNat 0 data with
  | none => .malformed msgTreeNoNul
  | some (header, afterNul) =>
    if afterNul.length < 20 then .panicked
    else
      if validUtf8 header then
        match splitOnceNat 32 header with
        | none => .malformed msgTreeNoSpace
        | some (modeBytes, nameBytes) =>
          match parseOctU32 modeBytes with
          | none => .malformed msgParseInt
          | some mode =>
            .ok (afterNul.drop 20, ⟨mode, nameBytes, afterNul.take 20⟩)
      else .malformed msgUtf8

/-- `TreeItem::is_file` (main.rs:238-241): tests bit 15 of the mode. -/
def TreeItem.isFileBit (item : TreeItem) : Bool :=
  decide (item.mode &&& 32768 ≠ 0)

/-- The kind column printed by `cat-file -p` / `ls-tree`
(main.rs:585, 611). -/
def lsTreeKind (item : TreeItem) : String :=
  if item.isFileBit then "blob" else "tree"

inductive PanicOr (α : Type) where
  | ok (val : α)
  | panicked
deriving DecidableEq

theorem parseTreeItem_rest_length {data rest : List Nat} {item : TreeItem}
    (h : parseTreeItem data = .ok (rest, item)) : rest.length < data.length := by
  unfold parseTreeItem at h
  cases hsplit : splitOnceNat 0 data with
  | none => rw [hsplit] at h; simp at h
  | some p =>
    obtain ⟨header, afterNul⟩ := p
    rw [hsplit] at h
    simp only [] at h
    have hlen := splitOnceNat_post_length hsplit
    by_cases hlt : afterNul.length < 20
    · rw [if_pos hlt] at h; simp at h
    · rw [if_neg hlt] at h
      by_cases hutf : validUtf8 header = true
      · rw [if_pos hutf] at h
        cases hsp : splitOnceNat 32 header with
        | none => rw [hsp] at h; simp at h
        | some q =>
          obtain ⟨mb, nb⟩ := q
          rw [hsp] at h
          simp only [] at h
          cases hoct : parseOctU32 mb with
          | none => rw [hoct] at h; simp at h
          | some m =>
            rw [hoct] at h
            simp only [PResult.ok.injEq, Prod.mk.injEq] at h
            obtain ⟨h1, _⟩ := h
            subst h1
            simp only [List.length_drop]
            omega
      · rw [if_neg hutf] at h; simp at h

/-- The element stream of `TreeDataIterator` (main.rs:243-256),
collected into a list: a parse error silently ends the iteration
(`.ok()?` in `next`), while a panic propagates.  Fuel-driven; every
yielded item consumes at least 21 bytes. -/
def treeIterGo : Nat → List Nat → PanicOr (List TreeItem)
  | 0, _ => .ok []
  | fuel + 1, data =>
    match parseTreeItem data with
    | .ok (rest, item) =>
      match treeIterGo fuel rest with
      | .ok items => .ok (item :: items)
      | .panicked => .panicked
    | .malformed _ => .ok []
    | .panicked => .panicked

def treeIterItems (data : List Nat) : PanicOr (List TreeItem) :=
  treeIterGo (data.length + 1) data

/-- The adjustment `TreeData::add_object` applies to the mode
(main.rs:273-277): clear bit 15 for trees, set it for everything else
(`4294934527 = 2^32 - 1 - 2^15`). -/
def adjustMode (o : Object) (mode : Nat) : Nat :=
  match o with
  | .tree _ => mode &&& 4294934527
  | _ => mode ||| 32768

/-- The bytes `TreeData::add_item` appends for one item
(main.rs:288-295); `add_object` (main.rs:272-286) appends the same shape
with the adjusted mode and the object hash. -/
def serializeTreeItem (item : TreeItem) : List Nat :=
  octalAscii item.mode ++ 32 :: item.name ++ 0 :: item.hash

def addObjectBytes (data : List Nat) (o : Object) (name : List Nat)
    (mode : Nat) : List Nat :=
  data ++ serializeTreeItem ⟨adjustMode o mode, name, o.hash⟩

/-- `str::cmp` on the names, which is byte-wise lexicographic order. -/
def lexLtBytes : List Nat → List Nat → Bool
  | [], [] => false
  | [], _ :: _ => true
  | _ :: _, [] => false
  | a :: as2, b :: bs2 =>
    if a < b then true else if b < a then false else lexLtBytes as2 bs2

/-- Stable insertion used to model `slice::sort_by` (a stable sort,
main.rs:306): a new item goes after all earlier items whose name is not
strictly greater. -/
def insertItemByName (a : TreeItem) : List TreeItem → List TreeItem
  | [] => [a]
  | b :: l =>
    if lexLtBytes a.name b.name then a :: b :: l else b :: insertItemByName a l

def sortItemsByName (items : List TreeItem) : List TreeItem :=
  items.foldl (fun acc a => insertItemByName a acc) []

/-- `TreeData::sort` (main.rs:297-312): collect the items through the
iterator (panic propagates), sort them stably by name, and rebuild the
byte buffer with `add_item`. -/
def treeDataSort (data : List Nat) : PanicOr (List Nat) :=
  match treeIterItems data with
  | .ok items => .ok ((sortItemsByName items).map serializeTreeItem).flatten
  | .panicked => .panicked

/-! ### UTF-8 encoding of Lean strings (for file names and fixed text) -/

def charUtf8Bytes (c : Char) : List Nat :=
  let n := c.toNat
  if n ≤ 127 then [n]
  else if n ≤ 2047 then [192 + n / 64, 128 + n % 64]
  else if n ≤ 65535 then [224 + n / 4096, 128 + n / 64 % 64, 128 + n % 64]
  else [240 + n / 262144, 128 + n / 4096 % 64, 128 + n / 64 % 64, 128 + n % 64]

def strUtf8 (s : String) : List Nat := (s.data.map charUtf8Bytes).flatten

/-! ### ObjectRef and the object store (main.rs:79-204)

A `Store` models the `objects/` directory after decompression: a list of
(sub-directory name, files) pairs, each file a (name, decompressed
contents) pair.  Directory listing order is the list order. -/

def lowerAsciiChar (c : Char) : Char :=
  if 65 ≤ c.toNat ∧ c.toNat ≤ 90 then Char.ofNat (c.toNat + 32) else c

/-- `eq_ignore_ascii_case` on strings / OsStr (main.rs:94, 98, 163). -/
def eqIgnoreAsciiCase (a b : String) : Bool :=
  decide (a.data.map lowerAsciiChar = b.data.map lowerAsciiChar)

def isAsciiHexDigitChar (c : Char) : Bool :=
  (48 ≤ c.toNat && c.toNat ≤ 57) || (97 ≤ c.toNat && c.toNat ≤ 102)
    || (65 ≤ c.toNat && c.toNat ≤ 70)

/-- `ObjectRef::from_sha1` (main.rs:83-87): exactly 40 characters, all
ASCII hex digits.  (For a string of ASCII hex digits the byte length the
source checks equals the character count checked here.) -/
def objectRefFromSha1 (hash : String) : Option String :=
  if hash.length = 40 ∧ hash.data.all isAsciiHexDigitChar then some hash
  else none

def validSha (hash : String) : Bool :=
  decide (hash.length = 40) && hash.data.all isAsciiHexDigitChar

structure Store where
  dirs : List (String × List (String × List Nat))
deriving DecidableEq

/-- The two-level lookup inside `Repository::find_object`
(main.rs:158-184): the first directory whose name matches the 2-hex
prefix case-insensitively, then within it the first file whose name
matches the remaining 38 characters case-insensitively. -/
def storeLookup (store : Store) (r : String) : Option (List Nat) :=
  match store.dirs.find? (fun d => eqIgnoreAsciiCase d.1 (r.take 2)) with
  | none => none
  | some (_, files) =>
    match files.find? (fun f => eqIgnoreAsciiCase f.1 (r.drop 2)) with
    | none => none
    | some (_, content) => some content

/-- `Repository::find_object` (main.rs:157-194): resolve the path, read
and decode the object, then require the recomputed hash to match the
requested id (`anyhow::ensure`, main.rs:186); both no-match branches
produce the same "Could not find requested object" error, classified
`NotFound`. -/
def findObject (store : Store) (r : String) : Except GitError Object :=
  match store.dirs.find? (fun d => eqIgnoreAsciiCase d.1 (r.take 2)) with
  | none => .error .notFound
  | some (_, files) =>
    match files.find? (fun f => eqIgnoreAsciiCase f.1 (r.drop 2)) with
    | none => .error .notFound
    | some (_, content) =>
      match objectFromBytes content with
      | .error e => .error e
      | .ok obj =>
        if eqIgnoreAsciiCase r obj.hashString then .ok obj
        else .error .hashMismatch

def filesInsert (rem : String) (content : List Nat) :
    List (String × List Nat) → List (String × List Nat)
  | [] => [(rem, content)]
  | (fn, c) :: rest =>
    if fn = rem then (fn, content) :: rest
    else (fn, c) :: filesInsert rem content rest

def dirsInsert (pre rem : String) (content : List Nat) :
    List (String × List (String × List Nat)) →
    List (String × List (String × List Nat))
  | [] => [(pre, [(rem, content)])]
  | (dn, files) :: rest =>
    if dn = pre then (dn, filesInsert rem content files) :: rest
    else (dn, files) :: dirsInsert pre rem content rest

/-- `Repository::save_object` (main.rs:196-203): split the hash into a
2-hex prefix and 38-hex remainder, create the prefix directory if absent
(idempotent) and write the encoded object, overwriting any existing
file. -/
def saveObject (store : Store) (o : Object) : Store :=
  let h := o.hashString
  ⟨dirsInsert (h.take 2) (h.drop 2) o.encodeBytes store.dirs⟩

/-! ### commit-tree (main.rs:697-741) -/

/-- `format!("{:+04}", z)`: sign always shown, zero-padded to a minimum
total width of 4 (sign included). -/
def formatPlus04 (z : Int) : List Nat :=
  let sign := if z < 0 then 45 else 43
  let digits := decimalAscii z.natAbs
  sign :: (if digits.length < 3 then List.replicate (3 - digits.length) 48
           else []) ++ digits

/-- `{name} <{email}> {timestamp} {timezone:+04}` as written by
`Into<Commit> for CommitData` (main.rs:432-442). -/
def personLineBytes (p : PersonRec) : List Nat :=
  p.name ++ 32 :: 60 :: p.email ++ 62 :: 32 :: decimalAscii p.timestamp
    ++ 32 :: formatPlus04 p.timezone

/-- The commit text built by `Into<Commit> for CommitData`
(main.rs:423-448): `tree <hash>`, one `parent <hash>` line per parent,
`author`/`committer` lines, a blank line, then the message. -/
def commitIntoBytes (treeHash : List Nat) (parents : List (List Nat))
    (author committer : PersonRec) (message : List Nat) : List Nat :=
  [116, 114, 101, 101, 32] ++ treeHash
    ++ (parents.map (fun p => [10, 112, 97, 114, 101, 110, 116, 32] ++ p)).flatten
    ++ [10, 97, 117, 116, 104, 111, 114, 32] ++ personLineBytes author
    ++ [10, 99, 111, 109, 109, 105, 116, 116, 101, 114, 32]
    ++ personLineBytes committer
    ++ [10, 10] ++ message

/-- The parent-checking loop of `cmd_commit_tree` (main.rs:727-735):
each parent hash is validated and looked up before the commit is
persisted. -/
def checkParents (store : Store) : List String → Option GitError
  | [] => none
  | p :: rest =>
    match objectRefFromSha1 p with
    | none => some .invalidArgument
    | some pr =>
      match findObject store pr with
      | .error e => some e
      | .ok _ => checkParents store rest

def johnSmithName : String := "John Smith"
def johnSmithEmail : String := "john.smith@example.com"
def johnDoeName : String := "John Doe"
def johnDoeEmail : String := "john.doe@example.com"

/-- `cmd_commit_tree` (main.rs:697-741) over the store: validate and
look up the tree id, validate and look up every parent id, and only
then build and save the commit object.  The store is threaded
explicitly; every error path returns it unchanged, mirroring the fact
that `repo.save_object` (the only write) runs after all checks. -/
def cmdCommitTree (store : Store) (treeSha : String)
    (parentShas : List String) (message : List Nat) (epochTime : Nat) :
    Except GitError String × Store :=
  match objectRefFromSha1 treeSha with
  | none => (.error .invalidArgument, store)
  | some tref =>
    match findObject store tref with
    | .error e => (.error e, store)
    | .ok _ =>
      match checkParents store parentShas with
      | some e => (.error e, store)
      | none =>
        let author : PersonRec :=
          ⟨strUtf8 johnSmithName, strUtf8 johnSmithEmail, epochTime, 0⟩
        let committer : PersonRec :=
          ⟨strUtf8 johnDoeName, strUtf8 johnDoeEmail, epochTime, 0⟩
        let obj := Object.commit
          (commitIntoBytes (strUtf8 treeSha) (parentShas.map strUtf8)
            author committer message)
        (.ok obj.hashString, saveObject store obj)

/-! ### Tree builder (build_tree_for_directory, main.rs:643-678)

The walked filesystem is a value: a directory is a list of named
entries, an entry is a regular file (content and executable bit), a
subdirectory, or anything else (socket, symlink, ...).  Filesystem read
errors cannot occur on a value, and names arrive as already-decoded
strings, so the `err` outcome below is never produced; a `todo!`
(main.rs:669) is the `panicked` outcome. -/

mutual
inductive FSEntry where
  | file (content : List Nat) (executable : Bool)
  | dir (entries : FSDir)
  | other

inductive FSDir where
  | nil
  | cons (name : String) (entry : FSEntry) (rest : FSDir)
end

inductive BResult (α : Type) where
  | ok (val : α)
  | err (msg : String)
  | panicked
deriving DecidableEq

/-- `file_name.starts_with('.')` (main.rs:655). -/
def startsWithDot (s : String) : Bool :=
  match s.data with
  | c :: _ => decide (c = Char.ofNat 46)
  | [] => false

/-- The entry loop of `build_tree_for_directory` (main.rs:646-674),
processing entries in listing order.  For each entry: a hidden-name
check applies only inside the directory branch; subdirectories are
recursed into (and their tree bytes sorted, as the recursive call does
before returning, main.rs:676); regular files become blobs with mode
0o100755 or 0o100644; anything else hits `todo!`.  Returns the flat
object list (children before their parent tree, each followed by later
siblings) and the unsorted tree bytes of this level. -/
def buildDirLoop : FSDir → BResult (List Object × List Nat)
  | .nil => .ok ([], [])
  | .cons name e rest =>
    match e with
    | .file content ex =>
      let obj := Object.blob content
      let mode := if ex then 33261 else 33188
      match buildDirLoop rest with
      | .ok (objs, tree) =>
        .ok (obj :: objs,
             serializeTreeItem ⟨adjustMode obj mode, strUtf8 name, obj.hash⟩
               ++ tree)
      | r => r
    | .dir sub =>
      if startsWithDot name then buildDirLoop rest
      else
        match buildDirLoop sub with
        | .ok (subObjs, subTreeRaw) =>
          match treeDataSort subTreeRaw with
          | .ok subTree =>
            let obj := Object.tree subTree
            match buildDirLoop rest with
            | .ok (objs, tree) =>
              .ok (subObjs ++ obj :: objs,
                   serializeTreeItem
                     ⟨adjustMode obj 16384, strUtf8 name, obj.hash⟩ ++ tree)
            | r => r
          | .panicked => .panicked
        | r => r
    | .other => .panicked

/-- `build_tree_for_directory` (main.rs:643-678): run the entry loop,
then sort the tree bytes (main.rs:676) before returning. -/
def buildTreeForDirectory (d : FSDir) : BResult (List Object × List Nat) :=
  match buildDirLoop d with
  | .ok (objs, tree) =>
    match treeDataSort tree with
    | .ok sorted => .ok (objs, sorted)
    | .panicked => .panicked
  | r => r

/-- Does this directory directly contain an entry that is neither a
regular file nor a directory? -/
def FSDir.containsOther : FSDir → Bool
  | .nil => false
  | .cons _ .other _ => true
  | .cons _ _ rest => FSDir.containsOther rest

instance {ε α : Type} [DecidableEq ε] [DecidableEq α] :
    DecidableEq (Except ε α) := fun a b =>
  match a, b with
  | .ok x, .ok y =>
    if h : x = y then .isTrue (by rw [h])
    else .isFalse (fun hc => h (Except.ok.inj hc))
  | .error x, .error y =>
    if h : x = y then .isTrue (by rw [h])
    else .isFalse (fun hc => h (Except.error.inj hc))
  | .ok _, .error _ => .isFalse (fun hc => Except.noConfusion hc)
  | .error _, .ok _ => .isFalse (fun hc => Except.noConfusion hc)

/-! ### Shared lemmas about the store -/

/-- `findObject` factored through the two-level lookup. -/
theorem findObject_eq (store : Store) (r : String) :
    findObject store r =
      match storeLookup store r with
      | none => .error .notFound
      | some c =>
        match objectFromBytes c with
        | .error e => .error e
        | .ok obj =>
          if eqIgnoreAsciiCase r obj.hashString then .ok obj
          else .error .hashMismatch := by
  unfold findObject storeLookup
  cases store.dirs.find? (fun d => eqIgnoreAsciiCase d.1 (r.take 2)) with
  | none => rfl
  | some p =>
    obtain ⟨dn, files⟩ := p
    simp only []
    cases files.find? (fun f => eqIgnoreAsciiCase f.1 (r.drop 2)) with
    | none => rfl
    | some q => rfl

theorem findObject_of_lookup_none {store : Store} {r : String}
    (h : storeLookup store r = none) :
    findObject store r = .error .notFound := by
  rw [findObject_eq, h]

theorem objectRefFromSha1_of_validSha {s : String} (h : validSha s = true) :
    objectRefFromSha1 s = some s := by
  unfold validSha at h
  unfold objectRefFromSha1
  rw [if_pos]
  simp only [Bool.and_eq_true, decide_eq_true_eq] at h
  exact ⟨h.1, h.2⟩

/-! ### C9 -/

/-- C9: the hash of the empty blob is the canonical
`e69de29bb2d1d6434b8b29ae775ad8c2e48c5391`, and the hash is a function
of the kind string and the payload bytes only (so equal `(kind,
payload)` pairs always hash alike). -/
theorem hash_empty_blob_and_deterministic :
    Object.hashString (Object.blob []) =
      "e69de29bb2d1d6434b8b29ae775ad8c2e48c5391"
  ∧ ∀ o₁ o₂ : Object, o₁.kindBytes = o₂.kindBytes →
      o₁.contentsBytes = o₂.contentsBytes → o₁.hash = o₂.hash := by
  constructor
  · decide
  · intro o₁ o₂ hk hc
    unfold Object.hash
    rw [hk, hc]

/-- Witness for C9: the determinism half applied at two structurally
equal blobs. -/
theorem hash_deterministic_witness :
    (Object.blob [5]).hash = (Object.blob [5]).hash :=
  hash_empty_blob_and_deterministic.2 (Object.blob [5]) (Object.blob [5])
    rfl rfl

/-! ### C7 -/

/-- C7 counterexample: the claimed mode-mask rule
`mode & 0o170000 == 0o100000` does not describe the code.  At mode
`0o120000` (a symbolic link, `40960`), `TreeItem::is_file` tests bit 15
and returns `true`, so the entry is rendered as `"blob"`, while
`0o120000 & 0o170000 = 0o120000 ≠ 0o100000`. -/
theorem isFile_mask_counterexample :
    lsTreeKind ⟨40960, [], []⟩ = "blob"
  ∧ TreeItem.isFileBit ⟨40960, [], []⟩ = true
  ∧ ¬(40960 &&& 61440 = 32768) := by
  refine ⟨by decide, by decide, by decide⟩

/-- C7 (amended): a parsed tree entry is rendered with kind `"blob"`
rather than `"tree"` exactly when bit 15 of its mode is set
(`mode & 0o100000 ≠ 0`); in particular mode `0o120000` is classified as
a file. -/
theorem isFile_bit15_spec :
    (∀ item : TreeItem, lsTreeKind item = "blob" ↔ item.mode &&& 32768 ≠ 0)
  ∧ lsTreeKind ⟨40960, [], []⟩ = "blob" := by
  constructor
  · intro item
    unfold lsTreeKind TreeItem.isFileBit
    by_cases h : item.mode &&& 32768 ≠ 0
    · simp [h]
    · simp [h]
  · decide

/-- Witness for C7: the bit-15 rule applied at mode `0o100644`. -/
theorem isFile_bit15_witness : lsTreeKind ⟨33188, [], []⟩ = "blob" :=
  (isFile_bit15_spec.1 ⟨33188, [], []⟩).mpr (by decide)

/-! ### C3 -/

/-- C3: for a syntactically valid 40-hex id, `find_object` returns the
decoded object exactly when its recomputed hash matches the requested
id, fails as `HashMismatch` when the hashes disagree, and fails as
`NotFound` when no directory or file matches. -/
theorem findObject_spec (store : Store) (r : String)
    (hr : validSha r = true) :
    (storeLookup store r = none → findObject store r = .error .notFound)
  ∧ (∀ c o, storeLookup store r = some c → objectFromBytes c = .ok o →
      eqIgnoreAsciiCase r o.hashString = true → findObject store r = .ok o)
  ∧ (∀ c o, storeLookup store r = some c → objectFromBytes c = .ok o →
      eqIgnoreAsciiCase r o.hashString = false →
      findObject store r = .error .hashMismatch) := by
  refine ⟨fun h => findObject_of_lookup_none h, ?_, ?_⟩
  · intro c o hc ho hmatch
    rw [findObject_eq, hc]
    simp only [ho]
    rw [if_pos hmatch]
  · intro c o hc ho hmatch
    rw [findObject_eq, hc]
    simp only [ho]
    rw [if_neg (by simp [hmatch])]

/-- Witness for C3: on the empty store, a valid absent id yields
`NotFound`. -/
theorem findObject_spec_witness :
    findObject ⟨[]⟩ "aaaaaaaaaaaaaaaaaaaaaaaaaaaaaaaaaaaaaaaa"
      = .error .notFound :=
  (findObject_spec ⟨[]⟩ "aaaaaaaaaaaaaaaaaaaaaaaaaaaaaaaaaaaaaaaa"
    (by decide)).1 rfl

/-! ### C6 -/

theorem checkParents_first_absent (store : Store) :
    ∀ (ps1 : List String) (p : String) (ps2 : List String),
      (∀ q ∈ ps1, validSha q = true ∧ ∃ oq, findObject store q = .ok oq) →
      validSha p = true → storeLookup store p = none →
      checkParents store (ps1 ++ p :: ps2) = some .notFound := by
  intro ps1
  induction ps1 with
  | nil =>
    intro p ps2 _ hp habs
    simp only [List.nil_append, checkParents]
    rw [objectRefFromSha1_of_validSha hp]
    simp only []
    rw [findObject_of_lookup_none habs]
  | cons q qs ih =>
    intro p ps2 hall hp habs
    obtain ⟨hqv, oq, hoq⟩ := hall q (List.mem_cons_self q qs)
    simp only [List.cons_append, checkParents]
    rw [objectRefFromSha1_of_validSha hqv]
    simp only []
    rw [hoq]
    simp only [List.append_eq]
    exact ih p ps2 (fun x hx => hall x (List.mem_cons_of_mem q hx)) hp habs

/-- C6: `commit-tree` looks up the tree id and every parent id before
persisting.  If the tree id is valid but absent the command fails with
`NotFound` and returns the store unchanged (no commit is written); the
same holds when the tree resolves but some parent id (the first
failing one) is valid and absent. -/
theorem cmdCommitTree_absent_spec (store : Store) (treeSha : String)
    (parents : List String) (message : List Nat) (epochTime : Nat) :
    (validSha treeSha = true → storeLookup store treeSha = none →
      cmdCommitTree store treeSha parents message epochTime
        = (.error .notFound, store))
  ∧ (∀ ps1 p ps2, parents = ps1 ++ p :: ps2 →
      validSha treeSha = true → (∃ o, findObject store treeSha = .ok o) →
      (∀ q ∈ ps1, validSha q = true ∧ ∃ oq, findObject store q = .ok oq) →
      validSha p = true → storeLookup store p = none →
      cmdCommitTree store treeSha parents message epochTime
        = (.error .notFound, store)) := by
  constructor
  · intro hv habs
    unfold cmdCommitTree
    rw [objectRefFromSha1_of_validSha hv]
    simp only []
    rw [findObject_of_lookup_none habs]
  · intro ps1 p ps2 hps hv hex hall hp habs
    obtain ⟨o, ho⟩ := hex
    unfold cmdCommitTree
    rw [objectRefFromSha1_of_validSha hv]
    simp only []
    rw [ho]
    simp only []
    subst hps
    rw [checkParents_first_absent store ps1 p ps2 hall hp habs]

/-- Witness for C6: on the empty store, `commit-tree` with a valid
absent tree id fails `NotFound` and leaves the store empty. -/
theorem cmdCommitTree_absent_witness :
    cmdCommitTree ⟨[]⟩ "aaaaaaaaaaaaaaaaaaaaaaaaaaaaaaaaaaaaaaaa" [] [104] 7
      = (.error .notFound, (⟨[]⟩ : Store)) :=
  (cmdCommitTree_absent_spec ⟨[]⟩ "aaaaaaaaaaaaaaaaaaaaaaaaaaaaaaaaaaaaaaaa"
    [] [104] 7).1 (by decide) rfl

/-! ### C5 -/

theorem decimalAscii_ascii {n b : Nat} (h : b ∈ decimalAscii n) : b ≤ 127 := by
  have := decimalAscii_mem_range h
  omega

theorem octalAscii_ascii {n b : Nat} (h : b ∈ octalAscii n) : b ≤ 127 := by
  have := octalAscii_mem_range h
  omega

theorem zero_not_mem_decimalAscii (n : Nat) : (0 : Nat) ∉ decimalAscii n := by
  intro h
  have := decimalAscii_mem_range h
  omega

theorem space_not_mem_decimalAscii (n : Nat) : (32 : Nat) ∉ decimalAscii n := by
  intro h
  have := decimalAscii_mem_range h
  omega

theorem zero_not_mem_octalAscii (n : Nat) : (0 : Nat) ∉ octalAscii n := by
  intro h
  have := octalAscii_mem_range h
  omega

theorem space_not_mem_octalAscii (n : Nat) : (32 : Nat) ∉ octalAscii n := by
  intro h
  have := octalAscii_mem_range h
  omega

/-- `objectFromBytes` after resolving the NUL split. -/
theorem objectFromBytes_split {hd post : List Nat} (h0 : (0 : Nat) ∉ hd) :
    objectFromBytes (hd ++ 0 :: post) =
      if validUtf8 hd then
        match splitOnceNat 32 hd with
        | none => .error (.malformed msgHeaderFormat)
        | some (t, s) =>
          match parseUsize s with
          | none => .error (.malformed msgParseInt)
          | some n =>
            if n = post.length then dispatchObject t post
            else .error (.malformed msgLenMismatch)
      else .error (.malformed msgUtf8) := by
  unfold objectFromBytes
  rw [splitOnceNat_append post h0]

/-- C5: the loose-object decoder fails as `Malformed` exactly per the
documented conditions: no NUL in the contents, header not valid UTF-8,
no space in the header, unparsable declared length, or a declared
length that differs from the payload length; and when the declared
length equals the payload length the check passes and decoding proceeds
to the kind dispatch. -/
theorem objectFromBytes_malformed_spec :
    (∀ c : List Nat, (0 : Nat) ∉ c →
      objectFromBytes c = .error (.malformed msgNoHeaderTerm))
  ∧ (∀ hd post : List Nat, (0 : Nat) ∉ hd → validUtf8 hd = false →
      objectFromBytes (hd ++ 0 :: post) = .error (.malformed msgUtf8))
  ∧ (∀ hd post : List Nat, (0 : Nat) ∉ hd → validUtf8 hd = true →
      (32 : Nat) ∉ hd →
      objectFromBytes (hd ++ 0 :: post) = .error (.malformed msgHeaderFormat))
  ∧ (∀ t s post : List Nat, (0 : Nat) ∉ t → (0 : Nat) ∉ s → (32 : Nat) ∉ t →
      validUtf8 (t ++ 32 :: s) = true → parseUsize s = none →
      objectFromBytes (t ++ 32 :: s ++ 0 :: post)
        = .error (.malformed msgParseInt))
  ∧ (∀ (t s post : List Nat) (n : Nat), (0 : Nat) ∉ t → (0 : Nat) ∉ s →
      (32 : Nat) ∉ t → validUtf8 (t ++ 32 :: s) = true →
      parseUsize s = some n → n ≠ post.length →
      objectFromBytes (t ++ 32 :: s ++ 0 :: post)
        = .error (.malformed msgLenMismatch))
  ∧ (∀ (t s post : List Nat) (n : Nat), (0 : Nat) ∉ t → (0 : Nat) ∉ s →
      (32 : Nat) ∉ t → validUtf8 (t ++ 32 :: s) = true →
      parseUsize s = some n → n = post.length →
      objectFromBytes (t ++ 32 :: s ++ 0 :: post) = dispatchObject t post) := by
  have hsplit3 : ∀ t s post : List Nat, (0 : Nat) ∉ t → (0 : Nat) ∉ s →
      t ++ 32 :: s ++ 0 :: post = (t ++ 32 :: s) ++ 0 :: post ∧
      (0 : Nat) ∉ t ++ 32 :: s := by
    intro t s post h0t h0s
    constructor
    · rw [List.append_assoc, List.cons_append]
    · intro hmem
      rcases List.mem_append.mp hmem with hm | hm
      · exact h0t hm
      · rcases List.mem_cons.mp hm with hm | hm
        · exact absurd hm.symm (by decide)
        · exact h0s hm
  refine ⟨?_, ?_, ?_, ?_, ?_, ?_⟩
  · intro c h0
    unfold objectFromBytes
    rw [splitOnceNat_eq_none h0]
  · intro hd post h0 hfalse
    rw [objectFromBytes_split h0, if_neg (by simp [hfalse])]
  · intro hd post h0 htrue h32
    rw [objectFromBytes_split h0, if_pos htrue, splitOnceNat_eq_none h32]
  · intro t s post h0t h0s h32t hutf hparse
    obtain ⟨heq, h0hd⟩ := hsplit3 t s post h0t h0s
    rw [heq, objectFromBytes_split h0hd, if_pos hutf,
        splitOnceNat_append s h32t]
    simp only []
    rw [hparse]
  · intro t s post n h0t h0s h32t hutf hparse hne
    obtain ⟨heq, h0hd⟩ := hsplit3 t s post h0t h0s
    rw [heq, objectFromBytes_split h0hd, if_pos hutf,
        splitOnceNat_append s h32t]
    simp only []
    rw [hparse]
    simp only []
    rw [if_neg hne]
  · intro t s post n h0t h0s h32t hutf hparse heqn
    obtain ⟨heq, h0hd⟩ := hsplit3 t s post h0t h0s
    rw [heq, objectFromBytes_split h0hd, if_pos hutf,
        splitOnceNat_append s h32t]
    simp only []
    rw [hparse]
    simp only []
    rw [if_pos heqn]

/-- Witness for C5: a NUL-free byte string decodes as the
missing-header-terminator `Malformed` error. -/
theorem objectFromBytes_malformed_witness :
    objectFromBytes [1, 2, 3] = .error (.malformed msgNoHeaderTerm) :=
  objectFromBytes_malformed_spec.1 [1, 2, 3] (by decide)

/-! ### C1 -/

/-- C1 counterexample: an `Unknown` object whose (unrecognized) kind
string contains a space does not round-trip.  `encode` writes
`"a b 0\0"`; `decode` splits the header at the first space into kind
`"a"` and size `"b 0"`, and the size fails to parse, so the result is a
`Malformed` error rather than the original object. -/
theorem roundTrip_counterexample :
    objectFromBytes (Object.unknown [97, 32, 98] []).encodeBytes
      = .error (.malformed msgParseInt)
  ∧ objectFromBytes (Object.unknown [97, 32, 98] []).encodeBytes
      ≠ .ok (Object.unknown [97, 32, 98] []) := by
  refine ⟨by decide, by decide⟩

/-- Side conditions under which the loose-object envelope of an object
can round-trip: the kind string contains no NUL and no space and is
valid UTF-8 (guaranteed for the three recognized kinds, and by Rust's
`String` type except for NUL/space for unknown kinds); an unknown kind
is none of the recognized kind strings; and a commit's stored text
parses under the commit grammar, which both `Commit` constructors
guarantee (main.rs:453-461, 464-467). -/
def objectRoundTripSafe : Object → Bool
  | .blob _ => true
  | .tree _ => true
  | .commit t => (commitTryFrom t).isSome
  | .unknown k _ =>
    validUtf8 k && decide ((0 : Nat) ∉ k) && decide ((32 : Nat) ∉ k)
      && decide (k ≠ blobKindBytes) && decide (k ≠ commitKindBytes)
      && decide (k ≠ treeKindBytes)

theorem commitTryFrom_of_isSome {t : List Nat}
    (h : (commitTryFrom t).isSome = true) : commitTryFrom t = some t := by
  unfold commitTryFrom at h ⊢
  split
  · cases hp : commitDataParse t with
    | none => rw [hp] at h; simp at h
    | some c => rfl
  · next hc => rw [if_neg hc] at h; simp at h

theorem objectFromBytes_encode_general (kind data : List Nat)
    (h0 : (0 : Nat) ∉ kind) (h32 : (32 : Nat) ∉ kind)
    (hutf : validUtf8 kind = true)
    (hlen : data.length < 18446744073709551616) :
    objectFromBytes (kind ++ 32 :: decimalAscii data.length ++ 0 :: data)
      = dispatchObject kind data := by
  refine objectFromBytes_malformed_spec.2.2.2.2.2 kind
    (decimalAscii data.length) data data.length h0
    (zero_not_mem_decimalAscii _) h32 ?_ ?_ rfl
  · refine validUtf8_append (32 :: decimalAscii data.length) hutf ?_
    refine validUtf8_ascii ?_
    intro b hb
    rcases List.mem_cons.mp hb with hb | hb
    · omega
    · exact decimalAscii_ascii hb
  · exact parseUsize_decimalAscii data.length hlen

/-- C1 (amended): decoding the encoding of an object returns the object
unchanged — kind string and payload bytes preserved exactly — for every
object satisfying `objectRoundTripSafe` (kind free of NUL and space and
valid UTF-8, unknown kinds unrecognized, commit text well-formed, as
the program's own constructors guarantee) whose payload length fits in
`usize`.  As stated over all objects the claim fails (see the
counterexample); the restriction on the kind string is exactly what the
counterexample forces. -/
theorem roundTrip_decode_encode (o : Object)
    (hsafe : objectRoundTripSafe o = true)
    (hlen : o.contentsBytes.length < 18446744073709551616) :
    objectFromBytes o.encodeBytes = .ok o := by
  cases o with
  | blob d =>
    rw [show (Object.blob d).encodeBytes
          = blobKindBytes ++ 32 :: decimalAscii d.length ++ 0 :: d from rfl]
    rw [objectFromBytes_encode_general blobKindBytes d (by decide) (by decide)
      (by decide) hlen]
    rfl
  | tree d =>
    rw [show (Object.tree d).encodeBytes
          = treeKindBytes ++ 32 :: decimalAscii d.length ++ 0 :: d from rfl]
    rw [objectFromBytes_encode_general treeKindBytes d (by decide) (by decide)
      (by decide) hlen]
    rfl
  | commit t =>
    rw [show (Object.commit t).encodeBytes
          = commitKindBytes ++ 32 :: decimalAscii t.length ++ 0 :: t from rfl]
    rw [objectFromBytes_encode_general commitKindBytes t (by decide)
      (by decide) (by decide) hlen]
    unfold objectRoundTripSafe at hsafe
    unfold dispatchObject
    rw [if_neg (by decide), if_pos rfl]
    rw [commitTryFrom_of_isSome hsafe]
  | unknown k d =>
    unfold objectRoundTripSafe at hsafe
    simp only [Bool.and_eq_true, decide_eq_true_eq] at hsafe
    obtain ⟨⟨⟨⟨⟨hutf, h0⟩, h32⟩, hnb⟩, hnc⟩, hnt⟩ := hsafe
    rw [show (Object.unknown k d).encodeBytes
          = k ++ 32 :: decimalAscii d.length ++ 0 :: d from rfl]
    rw [objectFromBytes_encode_general k d h0 h32 hutf hlen]
    unfold dispatchObject
    rw [if_neg hnb, if_neg hnc, if_neg hnt]

def exCommitText : String :=
  "tree aaaaaaaaaaaaaaaaaaaaaaaaaaaaaaaaaaaaaaaa\nauthor A <a@b> 0 +0000\ncommitter A <a@b> 0 +0000\n\nhello"

def exCommitBytes : List Nat := strUtf8 exCommitText

/-- Witness for C1: a well-formed commit object round-trips. -/
theorem roundTrip_decode_encode_witness :
    objectFromBytes (Object.commit exCommitBytes).encodeBytes
      = .ok (Object.commit exCommitBytes) :=
  roundTrip_decode_encode (Object.commit exCommitBytes) (by decide) (by decide)

/-! ### C4: tree item parsing and the iterator -/

/-- Well-formedness of an in-memory tree item: mode fits in `u32`, the
name has no NUL and is valid UTF-8, the hash is exactly 20 bytes. -/
def validTreeItem (i : TreeItem) : Prop :=
  i.mode < 4294967296 ∧ (0 : Nat) ∉ i.name ∧ validUtf8 i.name = true
    ∧ i.hash.length = 20

theorem serializeTreeItem_append (i : TreeItem) (rest : List Nat) :
    serializeTreeItem i ++ rest
      = (octalAscii i.mode ++ 32 :: i.name) ++ 0 :: (i.hash ++ rest) := by
  simp [serializeTreeItem, List.append_assoc, List.cons_append]

/-- Parsing undoes serialization of a well-formed item, leaving the
remaining bytes. -/
theorem parseTreeItem_serialize {i : TreeItem} (rest : List Nat)
    (hv : validTreeItem i) :
    parseTreeItem (serializeTreeItem i ++ rest) = .ok (rest, i) := by
  obtain ⟨hmode, h0name, hutfname, hhash⟩ := hv
  have h0hd : (0 : Nat) ∉ octalAscii i.mode ++ 32 :: i.name := by
    intro hmem
    rcases List.mem_append.mp hmem with hm | hm
    · exact zero_not_mem_octalAscii _ hm
    · rcases List.mem_cons.mp hm with hm | hm
      · exact absurd hm.symm (by decide)
      · exact h0name hm
  rw [serializeTreeItem_append]
  unfold parseTreeItem
  rw [splitOnceNat_append _ h0hd]
  simp only []
  rw [if_neg (by simp only [List.length_append, hhash]; omega)]
  have hutfhd : validUtf8 (octalAscii i.mode ++ 32 :: i.name) = true := by
    have hform : octalAscii i.mode ++ 32 :: i.name
        = (octalAscii i.mode ++ [32]) ++ i.name := by
      rw [List.append_assoc]
      rfl
    rw [hform, validUtf8_ascii_append]
    · exact hutfname
    · intro b hb
      rcases List.mem_append.mp hb with hm | hm
      · exact octalAscii_ascii hm
      · rcases List.mem_cons.mp hm with hm | hm
        · omega
        · simp at hm
  rw [if_pos hutfhd, splitOnceNat_append _ (space_not_mem_octalAscii _)]
  simp only []
  rw [parseOctU32_octalAscii i.mode hmode]
  simp only []
  rw [List.drop_left' hhash, List.take_left' hhash]

theorem treeIterGo_fuel :
    ∀ (f1 f2 : Nat) (data : List Nat), data.length < f1 → data.length < f2 →
      treeIterGo f1 data = treeIterGo f2 data := by
  intro f1
  induction f1 with
  | zero => intro f2 data h1 _; omega
  | succ f ih =>
    intro f2 data h1 h2
    cases f2 with
    | zero => omega
    | succ f2p =>
      simp only [treeIterGo]
      cases hp : parseTreeItem data with
      | ok p =>
        obtain ⟨rest, item⟩ := p
        have hlt := parseTreeItem_rest_length hp
        simp only []
        rw [ih f2p rest (by omega) (by omega)]
      | malformed m => rfl
      | panicked => rfl

def serializeItems (items : List TreeItem) : List Nat :=
  (items.map serializeTreeItem).flatten

/-- The iterator yields exactly the well-formed items serialized at the
front of the buffer and stops silently at trailing bytes on which
`TreeItem::parse` fails with an error. -/
theorem treeIterItems_serialize :
    ∀ (items : List TreeItem) (bad : List Nat),
      (∀ i ∈ items, validTreeItem i) →
      (∃ m, parseTreeItem bad = .malformed m) →
      treeIterItems (serializeItems items ++ bad) = .ok items := by
  intro items
  induction items with
  | nil =>
    intro bad _ ⟨m, hm⟩
    show treeIterGo _ _ = _
    simp only [serializeItems, List.map_nil, List.flatten_nil, List.nil_append]
    simp only [treeIterGo, hm]
  | cons i rest ih =>
    intro bad hall ⟨m, hm⟩
    have hvi := hall i (List.mem_cons_self i rest)
    have hform : serializeItems (i :: rest) ++ bad
        = serializeTreeItem i ++ (serializeItems rest ++ bad) := by
      simp [serializeItems, List.append_assoc]
    have hparse := parseTreeItem_serialize (serializeItems rest ++ bad) hvi
    show treeIterGo _ _ = _
    rw [hform]
    have hlt := parseTreeItem_rest_length hparse
    have hfuel : (serializeItems rest ++ bad).length
        < (serializeTreeItem i ++ (serializeItems rest ++ bad)).length := hlt
    simp only [treeIterGo, hparse]
    rw [treeIterGo_fuel _ ((serializeItems rest ++ bad).length + 1) _
      (by omega) (by omega)]
    rw [show treeIterGo ((serializeItems rest ++ bad).length + 1)
          (serializeItems rest ++ bad)
        = treeIterItems (serializeItems rest ++ bad) from rfl]
    rw [ih bad (fun x hx => hall x (List.mem_cons_of_mem i hx)) ⟨m, hm⟩]

/-- C4 counterexample: the claim fails on the code in two ways.  A
stream whose entry has fewer than 20 bytes after the NUL does not fail
as `Malformed`: `split_at(20)` panics (`parseTreeItem` yields
`panicked`).  And a malformed entry does not abort the entire decode:
the iterator silently stops there, returning the prefix of well-formed
entries (here one entry parsed from a buffer whose tail `[99]` is
malformed). -/
theorem treeParse_counterexample :
    parseTreeItem ([49, 48, 48, 54, 52, 52, 32, 97, 0] ++ [1, 2, 3])
      = .panicked
  ∧ treeIterItems
      (serializeTreeItem ⟨33188, [97], List.replicate 20 1⟩ ++ [99])
      = .ok [⟨33188, [97], List.replicate 20 1⟩] := by
  refine ⟨by decide, by decide⟩

/-- C4 (amended): an entry stream with no NUL before the end, or (with
at least 20 bytes after the NUL) no space in the header, makes
`TreeItem::parse` fail as `Malformed`; fewer than 20 bytes after the
NUL instead make it panic (`slice::split_at`), not fail as `Malformed`;
and a `Malformed` entry does not abort the decode of the stream — the
iterator stops there and yields the preceding well-formed entries. -/
theorem treeParse_malformed_spec :
    (∀ data : List Nat, (0 : Nat) ∉ data →
      parseTreeItem data = .malformed msgTreeNoNul)
  ∧ (∀ hd post : List Nat, (0 : Nat) ∉ hd → 20 ≤ post.length →
      validUtf8 hd = true → (32 : Nat) ∉ hd →
      parseTreeItem (hd ++ 0 :: post) = .malformed msgTreeNoSpace)
  ∧ (∀ hd post : List Nat, (0 : Nat) ∉ hd → post.length < 20 →
      parseTreeItem (hd ++ 0 :: post) = .panicked)
  ∧ (∀ (items : List TreeItem) (bad : List Nat),
      (∀ i ∈ items, validTreeItem i) →
      (∃ m, parseTreeItem bad = .malformed m) →
      treeIterItems (serializeItems items ++ bad) = .ok items) := by
  refine ⟨?_, ?_, ?_, treeIterItems_serialize⟩
  · intro data h0
    unfold parseTreeItem
    rw [splitOnceNat_eq_none h0]
  · intro hd post h0 hge hutf h32
    unfold parseTreeItem
    rw [splitOnceNat_append _ h0]
    simp only []
    rw [if_neg (by omega), if_pos hutf, splitOnceNat_eq_none h32]
  · intro hd post h0 hlt
    unfold parseTreeItem
    rw [splitOnceNat_append _ h0]
    simp only []
    rw [if_pos hlt]

/-- Witness for C4: a NUL-free stream fails with the
filename-terminator `Malformed` error. -/
theorem treeParse_malformed_witness :
    parseTreeItem [49, 48, 48] = .malformed msgTreeNoNul :=
  treeParse_malformed_spec.1 [49, 48, 48] (by decide)

/-! ### C2: canonicalization by sorting -/

theorem lexLtBytes_asymm :
    ∀ {a b : List Nat}, lexLtBytes a b = true → lexLtBytes b a = false := by
  intro a
  induction a with
  | nil =>
    intro b h
    cases b with
    | nil => simp [lexLtBytes] at h
    | cons x xs => rfl
  | cons x xs ih =>
    intro b h
    cases b with
    | nil => simp [lexLtBytes] at h
    | cons y ys =>
      simp only [lexLtBytes] at h ⊢
      by_cases hxy : x < y
      · rw [if_pos hxy] at h
        rw [if_neg (by omega), if_pos hxy]
      · rw [if_neg hxy] at h
        by_cases hyx : y < x
        · rw [if_pos hyx] at h
          simp at h
        · rw [if_neg hyx] at h
          rw [if_neg hyx, if_neg hxy]
          exact ih h

theorem lexLtBytes_trans :
    ∀ {a b c : List Nat}, lexLtBytes a b = true → lexLtBytes b c = true →
      lexLtBytes a c = true := by
  intro a
  induction a with
  | nil =>
    intro b c h1 h2
    cases b with
    | nil => simp [lexLtBytes] at h1
    | cons y ys =>
      cases c with
      | nil => simp [lexLtBytes] at h2
      | cons z zs => rfl
  | cons x xs ih =>
    intro b c h1 h2
    cases b with
    | nil => simp [lexLtBytes] at h1
    | cons y ys =>
      cases c with
      | nil => simp [lexLtBytes] at h2
      | cons z zs =>
        simp only [lexLtBytes] at h1 h2 ⊢
        by_cases hxy : x < y
        · by_cases hyz : y < z
          · rw [if_pos (by omega)]
          · rw [if_neg hyz] at h2
            by_cases hzy : z < y
            · rw [if_pos hzy] at h2; simp at h2
            · have hyzeq : y = z := by omega
              subst hyzeq
              rw [if_pos hxy]
        · rw [if_neg hxy] at h1
          by_cases hyx : y < x
          · rw [if_pos hyx] at h1; simp at h1
          · have hxyeq : x = y := by omega
            subst hxyeq
            rw [if_neg hxy] at h1
            by_cases hxz : x < z
            · rw [if_pos hxz]
            · rw [if_neg hxz] at h2 ⊢
              by_cases hzx : z < x
              · rw [if_pos hzx] at h2; simp at h2
              · rw [if_neg hzx] at h2 ⊢
                exact ih h1 h2

theorem lexLtBytes_eq_of_not_lt :
    ∀ {a b : List Nat}, lexLtBytes a b = false → lexLtBytes b a = false →
      a = b := by
  intro a
  induction a with
  | nil =>
    intro b h1 _
    cases b with
    | nil => rfl
    | cons y ys => simp [lexLtBytes] at h1
  | cons x xs ih =>
    intro b h1 h2
    cases b with
    | nil => simp [lexLtBytes] at h2
    | cons y ys =>
      simp only [lexLtBytes] at h1 h2
      by_cases hxy : x < y
      · rw [if_pos hxy] at h1; simp at h1
      · by_cases hyx : y < x
        · rw [if_pos hyx] at h2; simp at h2
        · have hxyeq : x = y := by omega
          subst hxyeq
          rw [if_neg hxy, if_neg hxy] at h1 h2
          rw [ih h1 h2]

/-- Order maintained by the sort: `a` before `b` means `b`'s name is not
strictly below `a`'s. -/
def itemLe (a b : TreeItem) : Prop := lexLtBytes b.name a.name = false

theorem insertItemByName_perm (a : TreeItem) :
    ∀ l : List TreeItem, List.Perm (insertItemByName a l) (a :: l) := by
  intro l
  induction l with
  | nil => exact List.Perm.refl _
  | cons b t ih =>
    simp only [insertItemByName]
    by_cases h : lexLtBytes a.name b.name = true
    · rw [if_pos h]
    · rw [if_neg h]
      exact (ih.cons b).trans (List.Perm.swap a b t)

theorem sortItemsFoldl_perm :
    ∀ (l acc : List TreeItem),
      List.Perm (l.foldl (fun acc a => insertItemByName a acc) acc) (acc ++ l)
  := by
  intro l
  induction l with
  | nil => intro acc; simp
  | cons x xs ih =>
    intro acc
    simp only [List.foldl_cons]
    refine (ih (insertItemByName x acc)).trans ?_
    refine (((insertItemByName_perm x acc).append_right xs).trans ?_)
    exact List.perm_middle.symm

theorem sortItemsByName_perm (l : List TreeItem) :
    List.Perm (sortItemsByName l) l := by
  have h := sortItemsFoldl_perm l []
  simpa [sortItemsByName] using h

theorem pairwise_insertItemByName {a : TreeItem} {l : List TreeItem}
    (hl : List.Pairwise itemLe l) :
    List.Pairwise itemLe (insertItemByName a l) := by
  induction l with
  | nil => simp [insertItemByName, List.pairwise_cons]
  | cons b t ih =>
    rcases List.pairwise_cons.mp hl with ⟨hb, ht⟩
    simp only [insertItemByName]
    by_cases h : lexLtBytes a.name b.name = true
    · rw [if_pos h]
      refine List.pairwise_cons.mpr ⟨?_, hl⟩
      intro c hc
      rcases List.mem_cons.mp hc with hc | hc
      · subst hc
        exact lexLtBytes_asymm h
      · show lexLtBytes c.name a.name = false
        cases hca : lexLtBytes c.name a.name with
        | false => rfl
        | true =>
          have hcb := lexLtBytes_trans hca h
          rw [hb c hc] at hcb
          exact hcb.symm
    · rw [if_neg h]
      refine List.pairwise_cons.mpr ⟨?_, ih ht⟩
      intro c hc
      rcases List.mem_cons.mp ((insertItemByName_perm a t).mem_iff.mp hc)
        with hc2 | hc2
      · rw [hc2]
        show lexLtBytes a.name b.name = false
        simpa using h
      · exact hb c hc2

theorem pairwise_sortItemsByName (l : List TreeItem) :
    List.Pairwise itemLe (sortItemsByName l) := by
  have haux : ∀ (xs acc : List TreeItem), List.Pairwise itemLe acc →
      List.Pairwise itemLe (xs.foldl (fun acc a => insertItemByName a acc) acc)
    := by
    intro xs
    induction xs with
    | nil => intro acc h; exact h
    | cons x rest ih =>
      intro acc h
      exact ih _ (pairwise_insertItemByName h)
  exact haux l [] List.Pairwise.nil

theorem eq_of_perm_of_pairwise_of_nodup_names :
    ∀ (l1 l2 : List TreeItem), List.Perm l1 l2 →
      List.Pairwise itemLe l1 → List.Pairwise itemLe l2 →
      (l1.map TreeItem.name).Nodup → l1 = l2 := by
  intro l1
  induction l1 with
  | nil =>
    intro l2 hperm _ _ _
    exact (hperm.nil_eq).symm.symm
  | cons a t1 ih =>
    intro l2 hperm hp1 hp2 hnd
    cases l2 with
    | nil => exact absurd hperm.symm.nil_eq (by simp)
    | cons b t2 =>
      rcases List.pairwise_cons.mp hp1 with ⟨ha, ht1⟩
      rcases List.pairwise_cons.mp hp2 with ⟨hbh, ht2⟩
      have hab : a = b := by
        by_contra hne
        have hainb : a ∈ b :: t2 := hperm.mem_iff.mp (List.mem_cons_self a t1)
        have haint2 : a ∈ t2 := by
          rcases List.mem_cons.mp hainb with hc | hc
          · exact absurd hc hne
          · exact hc
        have hbinl1 : b ∈ a :: t1 := hperm.symm.mem_iff.mp (List.mem_cons_self b t2)
        have hbint1 : b ∈ t1 := by
          rcases List.mem_cons.mp hbinl1 with hc | hc
          · exact absurd hc.symm hne
          · exact hc
        have h1 : lexLtBytes b.name a.name = false := ha b hbint1
        have h2 : lexLtBytes a.name b.name = false := hbh a haint2
        have hnames : a.name = b.name := lexLtBytes_eq_of_not_lt h2 h1
        have : a.name ∈ t1.map TreeItem.name := by
          rw [hnames]
          exact List.mem_map_of_mem TreeItem.name hbint1
        simp only [List.map_cons, List.nodup_cons] at hnd
        exact hnd.1 this
      subst hab
      have hperm2 : List.Perm t1 t2 := hperm.cons_inv
      have hnd2 : (t1.map TreeItem.name).Nodup := by
        simp only [List.map_cons, List.nodup_cons] at hnd
        exact hnd.2
      rw [ih t2 hperm2 ht1 ht2 hnd2]

/-- (object, name, mode) as passed to `TreeData::add_object`. -/
def treeEntryItem (e : Object × List Nat × Nat) : TreeItem :=
  ⟨adjustMode e.1 e.2.2, e.2.1, e.1.hash⟩

/-- Repeated `add_object` calls starting from `TreeData::empty`. -/
def insertEntries (l : List (Object × List Nat × Nat)) : List Nat :=
  l.foldl (fun acc e => addObjectBytes acc e.1 e.2.1 e.2.2) []

def entryValid (e : Object × List Nat × Nat) : Prop :=
  e.2.2 < 4294967296 ∧ (0 : Nat) ∉ e.2.1 ∧ validUtf8 e.2.1 = true

theorem insertEntries_foldl :
    ∀ (l : List (Object × List Nat × Nat)) (acc : List Nat),
      l.foldl (fun acc e => addObjectBytes acc e.1 e.2.1 e.2.2) acc
        = acc ++ serializeItems (l.map treeEntryItem) := by
  intro l
  induction l with
  | nil => intro acc; simp [serializeItems]
  | cons e rest ih =>
    intro acc
    simp only [List.foldl_cons, ih, List.map_cons]
    simp [addObjectBytes, serializeItems, treeEntryItem, List.append_assoc]

theorem insertEntries_eq (l : List (Object × List Nat × Nat)) :
    insertEntries l = serializeItems (l.map treeEntryItem) := by
  have h := insertEntries_foldl l []
  simpa [insertEntries] using h

theorem treeEntryItem_valid {e : Object × List Nat × Nat}
    (h : entryValid e) : validTreeItem (treeEntryItem e) := by
  obtain ⟨hmode, h0, hutf⟩ := h
  refine ⟨?_, h0, hutf, ?_⟩
  · show adjustMode e.1 e.2.2 < 4294967296
    unfold adjustMode
    have h32 : (4294967296 : Nat) = 2 ^ 32 := by norm_num
    cases e.1 with
    | tree d =>
      rw [h32]
      exact Nat.and_lt_two_pow e.2.2 (by norm_num)
    | blob d =>
      rw [h32]
      exact Nat.or_lt_two_pow (by rw [← h32]; exact hmode) (by norm_num)
    | commit t =>
      rw [h32]
      exact Nat.or_lt_two_pow (by rw [← h32]; exact hmode) (by norm_num)
    | unknown k d =>
      rw [h32]
      exact Nat.or_lt_two_pow (by rw [← h32]; exact hmode) (by norm_num)
  · exact sha1_length _

theorem treeDataSort_insertEntries (l : List (Object × List Nat × Nat))
    (hvalid : ∀ e ∈ l, entryValid e) :
    treeDataSort (insertEntries l)
      = .ok (serializeItems (sortItemsByName (l.map treeEntryItem))) := by
  have hiter : treeIterItems (insertEntries l) = .ok (l.map treeEntryItem) := by
    rw [insertEntries_eq]
    have h := treeIterItems_serialize (l.map treeEntryItem) []
      (by
        intro i hi
        rcases List.mem_map.mp hi with ⟨e, he, rfl⟩
        exact treeEntryItem_valid (hvalid e he))
      ⟨msgTreeNoNul, by decide⟩
    simpa using h
  unfold treeDataSort
  rw [hiter]
  rfl

/-- C2 counterexample: two insertion orders of the same entry set with
equal names produce different persisted bytes after canonicalization.
The two entries both carry the name `"a"` but different blob contents;
`sort_by` is stable, so each insertion order survives the sort and the
serialized hashes end up in different positions. -/
theorem treeSort_counterexample :
    List.Perm
      [(Object.blob [97], ([97] : List Nat), (33188 : Nat)),
       (Object.blob [98], ([97] : List Nat), (33188 : Nat))]
      [(Object.blob [98], ([97] : List Nat), (33188 : Nat)),
       (Object.blob [97], ([97] : List Nat), (33188 : Nat))]
  ∧ treeDataSort (insertEntries
      [(Object.blob [97], ([97] : List Nat), (33188 : Nat)),
       (Object.blob [98], ([97] : List Nat), (33188 : Nat))])
    ≠ treeDataSort (insertEntries
      [(Object.blob [98], ([97] : List Nat), (33188 : Nat)),
       (Object.blob [97], ([97] : List Nat), (33188 : Nat))]) := by
  constructor
  · exact List.Perm.swap _ _ _
  · decide

/-- C2 (amended): for entries with pairwise distinct names (a condition
the claim needs: with duplicate names the stable sort preserves each
insertion order, see the counterexample), inserting any two
permutations of the same entry set and then sorting produces identical
persisted bytes, and hence an identical object id; the sort orders
entries by name in byte-wise ascending order. -/
theorem treeSort_perm_invariant (l1 l2 : List (Object × List Nat × Nat))
    (hperm : List.Perm l1 l2) (hvalid : ∀ e ∈ l1, entryValid e)
    (hnodup : (l1.map (fun e => e.2.1)).Nodup) :
    treeDataSort (insertEntries l1) = treeDataSort (insertEntries l2)
  ∧ ∀ t1 t2, treeDataSort (insertEntries l1) = .ok t1 →
      treeDataSort (insertEntries l2) = .ok t2 →
      (Object.tree t1).hashString = (Object.tree t2).hashString := by
  have hvalid2 : ∀ e ∈ l2, entryValid e := fun e he =>
    hvalid e (hperm.symm.subset he)
  have hitems : sortItemsByName (l1.map treeEntryItem)
      = sortItemsByName (l2.map treeEntryItem) := by
    refine eq_of_perm_of_pairwise_of_nodup_names _ _ ?_
      (pairwise_sortItemsByName _) (pairwise_sortItemsByName _) ?_
    · exact ((sortItemsByName_perm _).trans (hperm.map treeEntryItem)).trans
        (sortItemsByName_perm _).symm
    · have hnames : (l1.map treeEntryItem).map TreeItem.name
          = l1.map (fun e => e.2.1) := by
        simp [treeEntryItem, Function.comp]
      have hperm2 : List.Perm
          ((sortItemsByName (l1.map treeEntryItem)).map TreeItem.name)
          ((l1.map treeEntryItem).map TreeItem.name) :=
        (sortItemsByName_perm _).map TreeItem.name
      rw [hnames] at hperm2
      exact hperm2.nodup_iff.mpr hnodup
  have hmain : treeDataSort (insertEntries l1) = treeDataSort (insertEntries l2)
    := by
    rw [treeDataSort_insertEntries l1 hvalid, treeDataSort_insertEntries l2 hvalid2,
        hitems]
  refine ⟨hmain, ?_⟩
  intro t1 t2 h1 h2
  rw [h1, h2] at hmain
  cases hmain
  rfl

/-- Witness for C2: two orders of a two-entry set with distinct names
`"a"` and `"b"` produce the same sorted bytes. -/
theorem treeSort_perm_invariant_witness :
    treeDataSort (insertEntries
      [(Object.blob [97], ([98] : List Nat), (33188 : Nat)),
       (Object.blob [98], ([97] : List Nat), (33188 : Nat))])
    = treeDataSort (insertEntries
      [(Object.blob [98], ([97] : List Nat), (33188 : Nat)),
       (Object.blob [97], ([98] : List Nat), (33188 : Nat))]) :=
  (treeSort_perm_invariant _ _ (List.Perm.swap _ _ _)
    (by
      intro e he
      simp only [List.mem_cons, List.mem_singleton] at he
      rcases he with rfl | he
      · exact ⟨by norm_num, by decide, by decide⟩
      · rcases he with rfl | he
        · exact ⟨by norm_num, by decide, by decide⟩
        · simp at he)
    (by decide)).1

/-! ### C8 and C10: the tree builder over filesystem values -/

def FSDir.append : FSDir → FSDir → FSDir
  | .nil, d => d
  | .cons nm e rest, d => .cons nm e (FSDir.append rest d)

/-- Spine length of a directory listing. -/
def FSDir.len : FSDir → Nat
  | .nil => 0
  | .cons _ _ rest => FSDir.len rest + 1

mutual
/-- Size of an entry, counting nested listings. -/
def FSEntry.sz : FSEntry → Nat
  | .file _ _ => 1
  | .dir d => FSDir.sz d + 1
  | .other => 1

/-- Size of a listing, counting nested listings. -/
def FSDir.sz : FSDir → Nat
  | .nil => 1
  | .cons _ e rest => FSEntry.sz e + FSDir.sz rest + 1
end

theorem buildDirLoop_skip_aux (name : String) (sub : FSDir)
    (hdot : startsWithDot name = true) :
    ∀ n pre, FSDir.len pre ≤ n → ∀ post,
      buildDirLoop (FSDir.append pre (.cons name (.dir sub) post))
        = buildDirLoop (FSDir.append pre post) := by
  intro n
  induction n with
  | zero =>
    intro pre hlen post
    cases pre with
    | nil =>
      show buildDirLoop (.cons name (.dir sub) post) = buildDirLoop post
      simp only [buildDirLoop]
      rw [if_pos hdot]
    | cons nm e rest => simp [FSDir.len] at hlen
  | succ k ih =>
    intro pre hlen post
    cases pre with
    | nil =>
      show buildDirLoop (.cons name (.dir sub) post) = buildDirLoop post
      simp only [buildDirLoop]
      rw [if_pos hdot]
    | cons nm e rest =>
      have hr : FSDir.len rest ≤ k := by
        simp only [FSDir.len] at hlen; omega
      have ihr := ih rest hr post
      simp only [FSDir.append]
      cases e with
      | file c ex =>
        simp only [buildDirLoop]
        rw [ihr]
      | dir s =>
        simp only [buildDirLoop]
        rw [ihr]
      | other => rfl

theorem buildDirLoop_ne_err_aux :
    ∀ n d, FSDir.sz d ≤ n → ∀ msg, buildDirLoop d ≠ .err msg := by
  intro n
  induction n with
  | zero =>
    intro d hd
    exfalso
    cases d <;> simp [FSDir.sz] at hd
  | succ k ih =>
    intro d hd msg h
    cases d with
    | nil => simp [buildDirLoop] at h
    | cons nm e rest =>
      cases e with
      | file c ex =>
        have hrest : FSDir.sz rest ≤ k := by
          simp only [FSDir.sz, FSEntry.sz] at hd; omega
        simp only [buildDirLoop] at h
        cases hr : buildDirLoop rest with
        | ok v =>
          obtain ⟨objs, tree⟩ := v
          rw [hr] at h
          simp only [] at h
          exact BResult.noConfusion h
        | err m => exact ih rest hrest m hr
        | panicked =>
          rw [hr] at h
          simp only [] at h
          exact BResult.noConfusion h
      | dir sub =>
        have hsub : FSDir.sz sub ≤ k := by
          simp only [FSDir.sz, FSEntry.sz] at hd; omega
        have hrest : FSDir.sz rest ≤ k := by
          simp only [FSDir.sz, FSEntry.sz] at hd; omega
        simp only [buildDirLoop] at h
        by_cases hdn : startsWithDot nm = true
        · rw [if_pos hdn] at h
          exact ih rest hrest msg h
        · rw [if_neg hdn] at h
          cases hs : buildDirLoop sub with
          | ok v =>
            obtain ⟨so, st⟩ := v
            rw [hs] at h
            simp only [] at h
            cases ht : treeDataSort st with
            | ok t =>
              rw [ht] at h
              simp only [] at h
              cases hrr : buildDirLoop rest with
              | ok v2 =>
                obtain ⟨objs, tree⟩ := v2
                rw [hrr] at h
                simp only [] at h
                exact BResult.noConfusion h
              | err m => exact ih rest hrest m hrr
              | panicked =>
                rw [hrr] at h
                simp only [] at h
                exact BResult.noConfusion h
            | panicked =>
              rw [ht] at h
              simp only [] at h
              exact BResult.noConfusion h
          | err m => exact ih sub hsub m hs
          | panicked =>
            rw [hs] at h
            simp only [] at h
            exact BResult.noConfusion h
      | other => simp [buildDirLoop] at h

theorem buildDirLoop_containsOther_aux :
    ∀ n d, FSDir.sz d ≤ n → FSDir.containsOther d = true →
      buildDirLoop d = .panicked := by
  intro n
  induction n with
  | zero =>
    intro d hd
    exfalso
    cases d <;> simp [FSDir.sz] at hd
  | succ k ih =>
    intro d hd hco
    cases d with
    | nil => simp [FSDir.containsOther] at hco
    | cons nm e rest =>
      cases e with
      | file c ex =>
        have hrest : FSDir.sz rest ≤ k := by
          simp only [FSDir.sz, FSEntry.sz] at hd; omega
        have hco2 : FSDir.containsOther rest = true := by
          simpa [FSDir.containsOther] using hco
        simp only [buildDirLoop]
        rw [ih rest hrest hco2]
      | dir sub =>
        have hsub : FSDir.sz sub ≤ k := by
          simp only [FSDir.sz, FSEntry.sz] at hd; omega
        have hrest : FSDir.sz rest ≤ k := by
          simp only [FSDir.sz, FSEntry.sz] at hd; omega
        have hco2 : FSDir.containsOther rest = true := by
          simpa [FSDir.containsOther] using hco
        simp only [buildDirLoop]
        by_cases hdn : startsWithDot nm = true
        · rw [if_pos hdn]
          exact ih rest hrest hco2
        · rw [if_neg hdn]
          cases hs : buildDirLoop sub with
          | ok v =>
            obtain ⟨so, st⟩ := v
            simp only []
            cases ht : treeDataSort st with
            | ok t =>
              simp only []
              rw [ih rest hrest hco2]
            | panicked => rfl
          | err m => exact absurd hs (buildDirLoop_ne_err_aux k sub hsub m)
          | panicked => rfl
      | other => rfl

/-- C8 (amended): the hidden-name check of the tree builder applies
only to directory entries: a subdirectory whose name starts with '.'
is skipped entirely (removing it from the listing leaves the result
unchanged), but a FILE whose name starts with '.' is NOT skipped — it
contributes a blob object and a tree entry exactly like any other
file. -/
theorem buildTree_hidden_dir_only (name : String) (sub : FSDir)
    (pre post : FSDir) (c : List Nat) (ex : Bool) (rest : FSDir)
    (objs : List Object) (tree : List Nat)
    (hdot : startsWithDot name = true)
    (hrest : buildDirLoop rest = .ok (objs, tree)) :
    buildTreeForDirectory (FSDir.append pre (.cons name (.dir sub) post))
      = buildTreeForDirectory (FSDir.append pre post)
  ∧ buildDirLoop (.cons name (.file c ex) rest)
      = .ok (Object.blob c :: objs,
          serializeTreeItem
            ⟨adjustMode (Object.blob c) (if ex then 33261 else 33188),
             strUtf8 name, (Object.blob c).hash⟩ ++ tree) := by
  constructor
  · unfold buildTreeForDirectory
    rw [buildDirLoop_skip_aux name sub hdot (FSDir.len pre) pre le_rfl post]
  · simp only [buildDirLoop]
    rw [hrest]

/-- Witness for C8: a hidden directory ".d" is dropped; a hidden file
".d" still yields its blob and entry. -/
theorem buildTree_hidden_dir_only_witness :
    buildTreeForDirectory
        (FSDir.append .nil (.cons ".d" (.dir .nil) .nil))
      = buildTreeForDirectory (FSDir.append .nil .nil)
  ∧ buildDirLoop (.cons ".d" (.file [] false) .nil)
      = .ok (Object.blob [] :: [],
          serializeTreeItem
            ⟨adjustMode (Object.blob []) (if false then 33261 else 33188),
             strUtf8 ".d", (Object.blob []).hash⟩ ++ []) :=
  buildTree_hidden_dir_only ".d" .nil .nil .nil [] false .nil [] []
    (by rfl) (by rfl)

/-- C8 counterexample: contrary to "every directory entry (file or
subdirectory alike) whose name starts with '.' is skipped", a file
named ".a" is processed: the build of a directory holding only that
file returns its blob object and a tree containing its entry. -/
theorem buildTree_hidden_file_counterexample :
    startsWithDot ".a" = true
  ∧ buildTreeForDirectory (FSDir.cons ".a" (FSEntry.file [] false) FSDir.nil)
      = BResult.ok ([Object.blob []],
          serializeTreeItem ⟨33188, strUtf8 ".a",
            sha1 [98, 108, 111, 98, 32, 48, 0]⟩) := by
  exact ⟨rfl, rfl⟩

/-- C10: on a filesystem value the tree builder never produces its
error outcome — and whenever the directory directly contains an entry
that is neither a regular file nor a directory, it panics (the
`todo!`), so the error branch is unreachable and non-file non-dir
entries abort by panic instead. -/
theorem buildTree_other_spec (d : FSDir) :
    (∀ msg, buildTreeForDirectory d ≠ BResult.err msg)
  ∧ (FSDir.containsOther d = true →
      buildTreeForDirectory d = BResult.panicked) := by
  constructor
  · intro msg h
    unfold buildTreeForDirectory at h
    cases hb : buildDirLoop d with
    | ok v =>
      obtain ⟨objs, tree⟩ := v
      rw [hb] at h
      simp only [] at h
      cases ht : treeDataSort tree with
      | ok s =>
        rw [ht] at h
        simp only [] at h
        exact BResult.noConfusion h
      | panicked =>
        rw [ht] at h
        simp only [] at h
        exact BResult.noConfusion h
    | err m => exact buildDirLoop_ne_err_aux (FSDir.sz d) d le_rfl m hb
    | panicked =>
      rw [hb] at h
      simp only [] at h
      exact BResult.noConfusion h
  · intro hco
    unfold buildTreeForDirectory
    rw [buildDirLoop_containsOther_aux (FSDir.sz d) d le_rfl hco]

/-- Witness for C10: a directory holding one non-file non-dir entry
panics. -/
theorem buildTree_other_spec_witness :
    buildTreeForDirectory (FSDir.cons "x" FSEntry.other FSDir.nil)
      = BResult.panicked :=
  (buildTree_other_spec (FSDir.cons "x" FSEntry.other FSDir.nil)).2 rfl

end GitCore
